import Mathlib

/-!
Verification development for the perceptron module (src/perceptron.py).

The module implements a multilayer perceptron over numpy arrays:
a sigmoid activation, a forward pass (feedforward), and a training
loop (learn) performing backpropagation with in-place weight and bias
updates.  We model numpy 1-D and 2-D arrays as function-backed vectors
and matrices over the reals, model every numpy operation the module
uses (dot products, elementwise maps, broadcasting arithmetic, axis-0
mean, in-place augmented assignment) as a total core together with an
Option wrapper that returns none exactly when numpy would raise a
shape error, and model the training loop as a state machine that, like
the Python original, keeps all mutations made before a failing
operation.
-/

namespace PerceptronModel

noncomputable section

/-- Model of a numpy 1-D array: a length and an entry function. -/
structure NPVec where
  n : ℕ
  f : ℕ → ℝ

/-- Model of a numpy 2-D array: a row count, a column count and an entry
function. -/
structure NPMat where
  r : ℕ
  c : ℕ
  f : ℕ → ℕ → ℝ

/-- Default matrix used for out-of-range list access in statements. -/
def dM : NPMat := ⟨0, 0, fun _ _ => 0⟩

/-- Default vector used for out-of-range list access in statements. -/
def dV : NPVec := ⟨0, fun _ => 0⟩

/-- Source function sigmoid: 1 / (1 + exp (-x)). -/
def sigmoid (x : ℝ) : ℝ := 1 / (1 + Real.exp (-x))

/-- Source function deriv_sigmoid: fx * (1 - fx) with fx = sigmoid x. -/
def deriv_sigmoid (x : ℝ) : ℝ := sigmoid x * (1 - sigmoid x)

/-- Elementwise map on a 1-D array. -/
def vmap (g : ℝ → ℝ) (v : NPVec) : NPVec := ⟨v.n, fun i => g (v.f i)⟩

/-- Elementwise map on a 2-D array, e.g. sigmoid applied to a matrix. -/
def mmap (g : ℝ → ℝ) (A : NPMat) : NPMat := ⟨A.r, A.c, fun i j => g (A.f i j)⟩

/-- numpy transpose of a 2-D array. -/
def transposeM (A : NPMat) : NPMat := ⟨A.c, A.r, fun i j => A.f j i⟩

/-- Multiplication of a 2-D array by a scalar, as in dw * learning_rate. -/
def smulM (t : ℝ) (A : NPMat) : NPMat := ⟨A.r, A.c, fun i j => A.f i j * t⟩

/-- Multiplication of a 1-D array by a scalar. -/
def smulV (t : ℝ) (v : NPVec) : NPVec := ⟨v.n, fun i => v.f i * t⟩

/-- numpy mean over axis 0 of a 2-D array: the vector of column means.
The divisor is the row count of the argument. -/
def meanAxis0 (A : NPMat) : NPVec :=
  ⟨A.c, fun j => (∑ i ∈ Finset.range A.r, A.f i j) / (A.r : ℝ)⟩

/-- Total core of the 1-D by 2-D dot product; the contracted length is
the row count of the matrix. -/
def dotVMT (v : NPVec) (M : NPMat) : NPVec :=
  ⟨M.c, fun j => ∑ k ∈ Finset.range M.r, v.f k * M.f k j⟩

/-- numpy dot of a 1-D array with a 2-D array; raises (none) unless the
vector length equals the matrix row count.  No broadcasting. -/
def dotVM (v : NPVec) (M : NPMat) : Option NPVec :=
  if v.n = M.r then some (dotVMT v M) else none

/-- Total core of the 2-D matrix product. -/
def matmulT (A B : NPMat) : NPMat :=
  ⟨A.r, B.c, fun i j => ∑ k ∈ Finset.range B.r, A.f i k * B.f k j⟩

/-- numpy dot of two 2-D arrays; raises (none) unless the inner
dimensions agree.  No broadcasting. -/
def matmulO (A B : NPMat) : Option NPMat :=
  if A.c = B.r then some (matmulT A B) else none

/-- Broadcast result extent for one axis: dimensions a and b combine to
a when they are equal, and to the other one when one of them is 1. -/
def bcDim (a b : ℕ) : ℕ := if a = b then a else if a = 1 then b else a

/-- Broadcast index adjustment for one axis: an axis of extent 1 is
read at position 0 when stretched against a differing extent. -/
def bcIdx (a b i : ℕ) : ℕ := if a = b then i else if a = 1 then 0 else i

/-- General elementwise combination of two 2-D arrays under numpy
broadcasting, total core. -/
def bcApply (g : ℝ → ℝ → ℝ) (A B : NPMat) : NPMat :=
  ⟨bcDim A.r B.r, bcDim A.c B.c, fun i j =>
    g (A.f (bcIdx A.r B.r i) (bcIdx A.c B.c j))
      (B.f (bcIdx B.r A.r i) (bcIdx B.c A.c j))⟩

/-- Elementwise combination of two 2-D arrays; raises (none) unless
every axis pair is broadcast-compatible (equal, or one of them 1). -/
def broadcast2 (g : ℝ → ℝ → ℝ) (A B : NPMat) : Option NPMat :=
  if (A.r = B.r ∨ A.r = 1 ∨ B.r = 1) ∧ (A.c = B.c ∨ A.c = 1 ∨ B.c = 1) then
    some (bcApply g A B) else none

/-- numpy elementwise subtraction with broadcasting, as in out - Xi[-1]. -/
def subB (A B : NPMat) : Option NPMat := broadcast2 (fun x y => x - y) A B

/-- numpy elementwise multiplication with broadcasting (np.multiply). -/
def mulB (A B : NPMat) : Option NPMat := broadcast2 (fun x y => x * y) A B

/-- A 1-D array viewed as a one-row 2-D array, which is how numpy
broadcasts a vector against a matrix. -/
def rowOf (b : NPVec) : NPMat := ⟨1, b.n, fun _ j => b.f j⟩

/-- numpy addition of a 2-D array and a 1-D array (bias broadcast
across the rows). -/
def addRowB (A : NPMat) (b : NPVec) : Option NPMat :=
  broadcast2 (fun x y => x + y) A (rowOf b)

/-- Total core of matrix plus row-broadcast bias, used on the
specification side where shapes agree exactly. -/
def addRowT (A : NPMat) (b : NPVec) : NPMat :=
  ⟨A.r, A.c, fun i j => A.f i j + b.f j⟩

/-- Total elementwise matrix addition (shapes taken from the first
argument). -/
def matAddT (A B : NPMat) : NPMat := ⟨A.r, A.c, fun i j => A.f i j + B.f i j⟩

/-- Total elementwise matrix subtraction (shapes taken from the first
argument). -/
def matSubT (A B : NPMat) : NPMat := ⟨A.r, A.c, fun i j => A.f i j - B.f i j⟩

/-- Total elementwise (Hadamard) matrix product. -/
def hadT (A B : NPMat) : NPMat := ⟨A.r, A.c, fun i j => A.f i j * B.f i j⟩

/-- Total elementwise vector addition. -/
def vAddT (x y : NPVec) : NPVec := ⟨x.n, fun i => x.f i + y.f i⟩

/-- numpy addition of two 1-D arrays with broadcasting. -/
def vAddB (x y : NPVec) : Option NPVec :=
  if x.n = y.n ∨ x.n = 1 ∨ y.n = 1 then
    some ⟨bcDim x.n y.n, fun i => x.f (bcIdx x.n y.n i) + y.f (bcIdx y.n x.n i)⟩
  else none

/-- numpy in-place += on a 2-D array: the increment must broadcast into
the shape of the target, which is preserved. -/
def iaddM (A D : NPMat) : Option NPMat :=
  if (D.r = A.r ∨ D.r = 1) ∧ (D.c = A.c ∨ D.c = 1) then
    some ⟨A.r, A.c, fun i j => A.f i j + D.f (bcIdx D.r A.r i) (bcIdx D.c A.c j)⟩
  else none

/-- numpy in-place += on a 1-D array: the increment must broadcast into
the length of the target, which is preserved. -/
def iaddV (b d : NPVec) : Option NPVec :=
  if d.n = b.n ∨ d.n = 1 then
    some ⟨b.n, fun i => b.f i + d.f (bcIdx d.n b.n i)⟩
  else none

/-- The Perceptron class state: the lists _synapses and _biases. -/
structure Perceptron where
  synapses : List NPMat
  biases : List NPVec

/-- Shape discipline of a network whose remaining layer widths are ns,
entered with current width n: each synapse matrix connects consecutive
widths and each bias has the width of the layer it feeds. -/
def ShapedFrom : ℕ → List NPMat → List NPVec → List ℕ → Prop
  | _, [], [], [] => True
  | n, W :: Ws, b :: bs, m :: ns =>
      W.r = n ∧ W.c = m ∧ b.n = m ∧ ShapedFrom m Ws bs ns
  | _, _, _, _ => False

/-- Constructor loop body: for consecutive widths n, m it allocates a
synapse matrix of shape (n, m) and a bias vector of length m, entries
drawn from the given sources (modelling np.random.random). -/
def buildFrom (wf : ℕ → ℕ → ℕ → ℝ) (bf : ℕ → ℕ → ℝ) :
    ℕ → ℕ → List ℕ → List NPMat × List NPVec
  | _, _, [] => ([], [])
  | k, n, m :: rest =>
      let p := buildFrom wf bf (k + 1) m rest
      (NPMat.mk n m (wf k) :: p.1, NPVec.mk m (bf k) :: p.2)

/-- The Perceptron constructor.  The Python signature demands at least
two sizes (layer_1, layer_2, *other_layers); np.random.random raises on
a negative dimension, so construction fails (none) exactly when some
size is negative, and performs no other validation. -/
def initP (l1 l2 : ℤ) (rest : List ℤ) (wf : ℕ → ℕ → ℕ → ℝ)
    (bf : ℕ → ℕ → ℝ) : Option Perceptron :=
  if ∀ x ∈ l1 :: l2 :: rest, 0 ≤ x then
    some ⟨(buildFrom wf bf 0 l1.toNat ((l2 :: rest).map Int.toNat)).1,
          (buildFrom wf bf 0 l1.toNat ((l2 :: rest).map Int.toNat)).2⟩
  else none

/-- The feedforward loop on a 1-D input: li = sigmoid (np.dot (li,
synapses[i]) + biases[i]) for each synapse index i.  The dot product is
evaluated before biases[i] is read, matching the Python evaluation
order, and an exhausted bias list is an index error (none). -/
def ffLoopV : List NPMat → List NPVec → NPVec → Option NPVec
  | [], _, v => some v
  | W :: Ws, bsAll, v =>
    match dotVM v W with
    | none => none
    | some z =>
      match bsAll with
      | [] => none
      | b :: bs =>
        match vAddB z b with
        | none => none
        | some z2 => ffLoopV Ws bs (vmap sigmoid z2)

/-- Perceptron.feedforward on a 1-D input. -/
def feedforwardV (p : Perceptron) (inp : NPVec) : Option NPVec :=
  ffLoopV p.synapses p.biases inp

/-- The feedforward loop on a 2-D (batch) input. -/
def ffLoopM : List NPMat → List NPVec → NPMat → Option NPMat
  | [], _, x => some x
  | W :: Ws, bsAll, x =>
    match matmulO x W with
    | none => none
    | some z =>
      match bsAll with
      | [] => none
      | b :: bs =>
        match addRowB z b with
        | none => none
        | some z2 => ffLoopM Ws bs (mmap sigmoid z2)

/-- Perceptron.feedforward on a 2-D (batch) input. -/
def feedforwardM (p : Perceptron) (inp : NPMat) : Option NPMat :=
  ffLoopM p.synapses p.biases inp

/-- The forward pass with memory inside Perceptron.learn.  Si starts as
[inp] and Xi as [sigmoid inp]; each step appends the pre-activation sum
np.dot (Xi[i], synapses[i]) + biases[i] to Si and its sigmoid to Xi.
The recursion carries the current pre-activation x, whose sigmoid is the
current activation; the dot product is evaluated before the bias lookup,
matching the Python evaluation order. -/
def forwardMem : List NPMat → List NPVec → NPMat →
    Option (List NPMat × List NPMat)
  | [], _, x => some ([x], [mmap sigmoid x])
  | W :: Ws, bsAll, x =>
    match matmulO (mmap sigmoid x) W with
    | none => none
    | some z =>
      match bsAll with
      | [] => none
      | b :: bs =>
        match addRowB z b with
        | none => none
        | some s =>
          match forwardMem Ws bs s with
          | none => none
          | some SX => some (x :: SX.1, mmap sigmoid x :: SX.2)

/-- The error backpropagation loop of Perceptron.learn: starting from
the accumulator [Ei_top], each step prepends Ei[0].dot (synapses[i].T)
while i runs downward; the list of the used synapses is supplied in that
downward order. -/
def backLoop : List NPMat → List NPMat → Option (List NPMat)
  | acc, [] => some acc
  | acc, s :: rest =>
    match acc with
    | [] => none
    | e :: _ =>
      match matmulO e (transposeM s) with
      | none => none
      | some e2 => backLoop (e2 :: acc) rest

/-- Error backpropagation of Perceptron.learn: the loop runs over
synapse indices len(Xi)-2 down to 1, i.e. over the tail of the synapse
list in reverse order. -/
def backE (syn : List NPMat) (eTop : NPMat) : Option (List NPMat) :=
  backLoop [eTop] ((syn.drop 1).reverse)

/-- Training state: the pair of the synapse and bias lists. -/
def NetState : Type := List NPMat × List NPVec

/-- The update loop of Perceptron.learn.  For each synapse index i it
computes grad = np.multiply (Ei[i], deriv_sigmoid (Si[i+1])), dw =
np.dot (grad.T, Xi[i]).T, then performs synapses[i] += dw *
learning_rate and biases[i] += np.mean (dw, axis=0) * learning_rate.
An error keeps every mutation already made, as the Python in-place
updates do; the arguments after the bias list are Ei, the tail of Si,
and Xi. -/
def updLoop (lr : ℝ) : List NPMat → List NPVec → List NPMat →
    List NPMat → List NPMat → Except NetState NetState
  | [], bs, _, _, _ => .ok ([], bs)
  | W :: Ws, bs, e :: E2, s :: S2, x :: X2 =>
    match mulB e (mmap deriv_sigmoid s) with
    | none => .error (W :: Ws, bs)
    | some grad =>
      match matmulO (transposeM grad) x with
      | none => .error (W :: Ws, bs)
      | some dwT =>
        match iaddM W (smulM lr (transposeM dwT)) with
        | none => .error (W :: Ws, bs)
        | some W2 =>
          match bs with
          | [] => .error (W2 :: Ws, [])
          | b :: bs2 =>
            match iaddV b (smulV lr (meanAxis0 (transposeM dwT))) with
            | none => .error (W2 :: Ws, b :: bs2)
            | some b2 =>
              match updLoop lr Ws bs2 E2 S2 X2 with
              | .error p2 => .error (W2 :: p2.1, b2 :: p2.2)
              | .ok p2 => .ok (W2 :: p2.1, b2 :: p2.2)
  | W :: Ws, bs, _, _, _ => .error (W :: Ws, bs)

/-- One epoch of Perceptron.learn: forward pass with memory, output
error out - Xi[-1] (with numpy broadcasting), error backpropagation,
then the in-place update loop.  A numpy shape error anywhere surfaces
as the error branch carrying the state as mutated so far; failures
before the update loop leave the state untouched. -/
def epochStep (lr : ℝ) (inp out : NPMat) (st : NetState) :
    Except NetState NetState :=
  match forwardMem st.1 st.2 inp with
  | none => .error st
  | some SX =>
    match subB out (SX.2.getLastD dM) with
    | none => .error st
    | some eTop =>
      match backE st.1 eTop with
      | none => .error st
      | some E => updLoop lr st.1 st.2 E (SX.1.drop 1) SX.2

/-- The epoch loop of Perceptron.learn. -/
def learnLoop (lr : ℝ) (inp out : NPMat) :
    ℕ → NetState → Except NetState NetState
  | 0, st => .ok st
  | k + 1, st =>
    match epochStep lr inp out st with
    | .error st2 => .error st2
    | .ok st2 => learnLoop lr inp out k st2

/-- Perceptron.learn: for epoch in range(epochs) run one epoch; a
non-positive epoch count gives an empty range.  The diagnostic print is
a pure read of Ei and does not affect the state. -/
def learn (p : Perceptron) (inp out : NPMat) (epochs : ℤ) (lr : ℝ) :
    Except NetState NetState :=
  learnLoop lr inp out epochs.toNat (p.synapses, p.biases)

/-- True on the ok branch; models a Python call returning without an
exception. -/
def isOkE (e : Except NetState NetState) : Bool :=
  match e with
  | .ok _ => true
  | .error _ => false

/-- The network state a run leaves behind, whether or not it raised. -/
def stateOf (e : Except NetState NetState) : NetState :=
  match e with
  | .ok st => st
  | .error st => st

/-! Specification-side definitions.  These follow the wording of the
specification: clean total recurrences over exact shapes, to be related
to the Option-threaded loop translations above. -/

/-- Listing of an indexed family: tailMap f t k = [f t, ..., f (t+k-1)]. -/
def tailMap {α : Type} (f : ℕ → α) : ℕ → ℕ → List α
  | _, 0 => []
  | t, k + 1 => f t :: tailMap f (t + 1) k

/-- Evaluator activations from the specification: a 0 is the raw input
and a (i+1) = sigmoid (a i · weights[i] + biases[i]); 1-D input. -/
def AS (syn : List NPMat) (bs : List NPVec) (a0 : NPVec) : ℕ → NPVec
  | 0 => a0
  | i + 1 =>
      vmap sigmoid (vAddT (dotVMT (AS syn bs a0 i) (syn.getD i dM)) (bs.getD i dV))

/-- Evaluator activations from the specification, batch (2-D) input. -/
def AM (syn : List NPMat) (bs : List NPVec) (a0 : NPMat) : ℕ → NPMat
  | 0 => a0
  | i + 1 =>
      mmap sigmoid (addRowT (matmulT (AM syn bs a0 i) (syn.getD i dM)) (bs.getD i dV))

/-- Trainer pre-activation sums from the specification: S 0 is the raw
input and S (i+1) = X i · weights[i] + biases[i] where X i =
sigmoid (S i); in particular X 0 = sigmoid (input). -/
def SS (syn : List NPMat) (bs : List NPVec) (inp : NPMat) : ℕ → NPMat
  | 0 => inp
  | i + 1 =>
      addRowT (matmulT (mmap sigmoid (SS syn bs inp i)) (syn.getD i dM)) (bs.getD i dV)

/-- Trainer activations from the specification: X i = sigmoid (S i). -/
def XS (syn : List NPMat) (bs : List NPVec) (inp : NPMat) (i : ℕ) : NPMat :=
  mmap sigmoid (SS syn bs inp i)

/-- Backpropagated errors, indexed downward: argument j stands for the
layer m - j, so 0 gives the output error and each step multiplies by the
transposed synapse entering the layer. -/
def ESdown (syn : List NPMat) (top : NPMat) (m : ℕ) : ℕ → NPMat
  | 0 => top
  | j + 1 => matmulT (ESdown syn top m j) (transposeM (syn.getD (m - (j + 1)) dM))

/-- Backpropagated error of layer k (1 ≤ k ≤ m): E m is the output
error and E k = E (k+1) · weights[k].T. -/
def ES (syn : List NPMat) (top : NPMat) (m k : ℕ) : NPMat :=
  ESdown syn top m (m - k)

/-- The output error of the specification: target - X m, the raw
residual. -/
def topErr (syn : List NPMat) (bs : List NPVec) (inp out : NPMat) : NPMat :=
  matSubT out (XS syn bs inp syn.length)

/-- The gradient of the specification: grad i = E (i+1) ⊙
deriv_sigmoid (S (i+1)). -/
def gradS (syn : List NPMat) (bs : List NPVec) (inp out : NPMat) (i : ℕ) : NPMat :=
  hadT (ES syn (topErr syn bs inp out) syn.length (i + 1))
       (mmap deriv_sigmoid (SS syn bs inp (i + 1)))

/-- The weight delta of the specification: dw i = (X i).T · grad i. -/
def dwS (syn : List NPMat) (bs : List NPVec) (inp out : NPMat) (i : ℕ) : NPMat :=
  matmulT (transposeM (XS syn bs inp i)) (gradS syn bs inp out i)

/-- The updated synapse of the specification: weights[i] + lr · dw i. -/
def updWS (lr : ℝ) (syn : List NPMat) (bs : List NPVec) (inp out : NPMat)
    (i : ℕ) : NPMat :=
  matAddT (syn.getD i dM) (smulM lr (dwS syn bs inp out i))

/-- The updated bias: biases[i] + lr · (column means of dw i); the mean
divisor is the row count of dw i, which is layer_sizes[i]. -/
def updBS (lr : ℝ) (syn : List NPMat) (bs : List NPVec) (inp out : NPMat)
    (i : ℕ) : NPVec :=
  vAddT (bs.getD i dV) (smulV lr (meanAxis0 (dwS syn bs inp out i)))

/-- The bias delta the claim describes: learning_rate times the mean
over the samples of dw i, i.e. column sums of dw divided by the number
of samples in the batch. -/
def claimMeanOverSamples (samples : ℕ) (dw : NPMat) : NPVec :=
  ⟨dw.c, fun j => (∑ i ∈ Finset.range dw.r, dw.f i j) / (samples : ℝ)⟩

/-! Basic lemmas about the embedding. -/

theorem tailMap_length {α : Type} (f : ℕ → α) :
    ∀ k t, (tailMap f t k).length = k := by
  intro k
  induction k with
  | zero => intro t; rfl
  | succ k ih => intro t; simp [tailMap, ih]

theorem tailMap_shift {α : Type} (f : ℕ → α) :
    ∀ k t, tailMap f (t + 1) k = tailMap (fun i => f (i + 1)) t k := by
  intro k
  induction k with
  | zero => intro t; rfl
  | succ k ih => intro t; simp only [tailMap, ih]

theorem tailMap_getD {α : Type} (d : α) (f : ℕ → α) :
    ∀ k t i, i < k → (tailMap f t k).getD i d = f (t + i) := by
  intro k
  induction k with
  | zero => intro t i hi; omega
  | succ k ih =>
    intro t i hi
    match i with
    | 0 => simp [tailMap]
    | Nat.succ i2 =>
      have h2 : i2 < k := by omega
      have := ih (t + 1) i2 h2
      simp only [tailMap, List.getD_cons_succ, this]
      congr 1
      omega

theorem tailMap_congr {α : Type} {f g : ℕ → α} (h : ∀ i, f i = g i) :
    ∀ k t, tailMap f t k = tailMap g t k := by
  intro k
  induction k with
  | zero => intro t; rfl
  | succ k ih => intro t; simp only [tailMap, h, ih]

theorem list_eq_tailMap {α : Type} (d : α) :
    ∀ l : List α, l = tailMap (fun i => l.getD i d) 0 l.length := by
  intro l
  induction l with
  | nil => rfl
  | cons a l2 ih =>
    simp only [List.length_cons, tailMap, List.getD_cons_zero]
    rw [tailMap_shift]
    exact congrArg (a :: ·) ih

theorem shapedFrom_lengths :
    ∀ (ns : List ℕ) (n0 : ℕ) (syn : List NPMat) (bs : List NPVec),
      ShapedFrom n0 syn bs ns → syn.length = ns.length ∧ bs.length = ns.length := by
  intro ns
  induction ns with
  | nil =>
    intro n0 syn bs h
    match syn, bs with
    | [], [] => simp
    | [], _ :: _ => exact absurd h (by simp [ShapedFrom])
    | _ :: _, [] => exact absurd h (by simp [ShapedFrom])
    | _ :: _, _ :: _ => exact absurd h (by simp [ShapedFrom])
  | cons n1 ns2 ih =>
    intro n0 syn bs h
    match syn, bs with
    | [], [] => exact absurd h (by simp [ShapedFrom])
    | [], _ :: _ => exact absurd h (by simp [ShapedFrom])
    | _ :: _, [] => exact absurd h (by simp [ShapedFrom])
    | W :: Ws, b :: bs2 =>
      have h2 := h.2.2.2
      have := ih n1 Ws bs2 h2
      simp [this.1, this.2]

theorem shapedFrom_getD :
    ∀ (ns : List ℕ) (n0 : ℕ) (syn : List NPMat) (bs : List NPVec),
      ShapedFrom n0 syn bs ns →
      ∀ i, i < ns.length →
        (syn.getD i dM).r = (n0 :: ns).getD i 0 ∧
        (syn.getD i dM).c = ns.getD i 0 ∧
        (bs.getD i dV).n = ns.getD i 0 := by
  intro ns
  induction ns with
  | nil => intro n0 syn bs _ i hi; simp at hi
  | cons n1 ns2 ih =>
    intro n0 syn bs h i hi
    match syn, bs with
    | [], [] => exact absurd h (by simp [ShapedFrom])
    | [], _ :: _ => exact absurd h (by simp [ShapedFrom])
    | _ :: _, [] => exact absurd h (by simp [ShapedFrom])
    | W :: Ws, b :: bs2 =>
      obtain ⟨hr, hc, hb, h2⟩ := h
      match i with
      | 0 => simp [hr, hc, hb]
      | Nat.succ i2 =>
        have hi2 : i2 < ns2.length := by simpa using hi
        have := ih n1 Ws bs2 h2 i2 hi2
        simpa using this

/-! Exact-shape behaviour of the numpy operation models: when the
shapes agree the Option wrappers succeed with the total cores. -/

theorem bcDim_self (a : ℕ) : bcDim a a = a := by
  unfold bcDim; simp

theorem bcDim_one (a : ℕ) : bcDim a 1 = a := by
  unfold bcDim; by_cases h : a = 1 <;> simp [h]

theorem bcIdx_self (a i : ℕ) : bcIdx a a i = i := by
  unfold bcIdx; simp

theorem bcIdx_one (a i : ℕ) : bcIdx a 1 i = i := by
  unfold bcIdx; by_cases h : a = 1 <;> simp [h]

theorem dotVM_eq (v : NPVec) (M : NPMat) (h : v.n = M.r) :
    dotVM v M = some (dotVMT v M) := by
  unfold dotVM; rw [if_pos h]

theorem matmulO_eq (A B : NPMat) (h : A.c = B.r) :
    matmulO A B = some (matmulT A B) := by
  unfold matmulO; rw [if_pos h]

theorem subB_eq (A B : NPMat) (hr : A.r = B.r) (hc : A.c = B.c) :
    subB A B = some (matSubT A B) := by
  unfold subB broadcast2
  rw [if_pos ⟨Or.inl hr, Or.inl hc⟩]
  unfold bcApply matSubT
  simp [hr, hc, bcDim_self, bcIdx_self]

theorem mulB_eq (A B : NPMat) (hr : A.r = B.r) (hc : A.c = B.c) :
    mulB A B = some (hadT A B) := by
  unfold mulB broadcast2
  rw [if_pos ⟨Or.inl hr, Or.inl hc⟩]
  unfold bcApply hadT
  simp [hr, hc, bcDim_self, bcIdx_self]

theorem addRowB_eq (A : NPMat) (b : NPVec) (hc : A.c = b.n) :
    addRowB A b = some (addRowT A b) := by
  unfold addRowB broadcast2
  rw [if_pos ⟨Or.inr (Or.inr rfl), Or.inl hc⟩]
  unfold bcApply addRowT rowOf
  simp [hc, bcDim_self, bcDim_one, bcIdx_self, bcIdx_one]

theorem vAddB_eq (x y : NPVec) (h : x.n = y.n) :
    vAddB x y = some (vAddT x y) := by
  unfold vAddB
  rw [if_pos (Or.inl h)]
  unfold vAddT
  simp [h, bcDim_self, bcIdx_self]

theorem iaddM_eq (A D : NPMat) (hr : D.r = A.r) (hc : D.c = A.c) :
    iaddM A D = some (matAddT A D) := by
  unfold iaddM
  rw [if_pos ⟨Or.inl hr, Or.inl hc⟩]
  unfold matAddT
  simp [hr, hc, bcIdx_self]

theorem iaddV_eq (b d : NPVec) (h : d.n = b.n) :
    iaddV b d = some (vAddT b d) := by
  unfold iaddV
  rw [if_pos (Or.inl h)]
  unfold vAddT
  simp [h, bcIdx_self]

/-- The dw computed by the code, np.dot (grad.T, Xi[i]).T, equals the
dw of the claim, Xi[i].T · grad, when the sample counts agree. -/
theorem transpose_dw (g x : NPMat) (h : x.r = g.r) :
    transposeM (matmulT (transposeM g) x) = matmulT (transposeM x) g := by
  unfold transposeM matmulT
  simp only [NPMat.mk.injEq, true_and]
  funext i j
  rw [h]
  exact Finset.sum_congr rfl (fun k _ => mul_comm _ _)

/-! Shapes of the specification sequences. -/

theorem AS_shape (ns : List ℕ) (n0 : ℕ) (syn : List NPMat) (bs : List NPVec)
    (a0 : NPVec) (h : ShapedFrom n0 syn bs ns) (ha : a0.n = n0) :
    ∀ i, i ≤ ns.length → (AS syn bs a0 i).n = (n0 :: ns).getD i 0 := by
  intro i
  induction i with
  | zero => intro _; simpa [AS] using ha
  | succ i ih =>
    intro hi
    have hlt : i < ns.length := by omega
    have hgd := shapedFrom_getD ns n0 syn bs h i hlt
    have h1 : (AS syn bs a0 (i + 1)).n = (syn.getD i dM).c := rfl
    rw [h1, hgd.2.1]
    simp

theorem SS_shape (ns : List ℕ) (n0 : ℕ) (syn : List NPMat) (bs : List NPVec)
    (inp : NPMat) (h : ShapedFrom n0 syn bs ns) (hc : inp.c = n0) :
    ∀ i, i ≤ ns.length →
      (SS syn bs inp i).r = inp.r ∧ (SS syn bs inp i).c = (n0 :: ns).getD i 0 := by
  intro i
  induction i with
  | zero => intro _; exact ⟨rfl, by simpa [SS] using hc⟩
  | succ i ih =>
    intro hi
    have hlt : i < ns.length := by omega
    have hgd := shapedFrom_getD ns n0 syn bs h i hlt
    have hr1 : (SS syn bs inp (i + 1)).r = (SS syn bs inp i).r := rfl
    have hc1 : (SS syn bs inp (i + 1)).c = (syn.getD i dM).c := rfl
    refine ⟨hr1.trans (ih (by omega)).1, ?_⟩
    rw [hc1, hgd.2.1]
    simp

theorem XS_shape (ns : List ℕ) (n0 : ℕ) (syn : List NPMat) (bs : List NPVec)
    (inp : NPMat) (h : ShapedFrom n0 syn bs ns) (hc : inp.c = n0) :
    ∀ i, i ≤ ns.length →
      (XS syn bs inp i).r = inp.r ∧ (XS syn bs inp i).c = (n0 :: ns).getD i 0 := by
  intro i hi
  have := SS_shape ns n0 syn bs inp h hc i hi
  exact ⟨this.1, this.2⟩

theorem ESdown_shape (ns : List ℕ) (n0 : ℕ) (syn : List NPMat) (bs : List NPVec)
    (top : NPMat) (m : ℕ) (h : ShapedFrom n0 syn bs ns) (hm : m = ns.length)
    (htc : top.c = (n0 :: ns).getD m 0) :
    ∀ j, j ≤ m →
      (ESdown syn top m j).r = top.r ∧
      (ESdown syn top m j).c = (n0 :: ns).getD (m - j) 0 := by
  intro j
  induction j with
  | zero => intro _; exact ⟨rfl, by simpa using htc⟩
  | succ j ih =>
    intro hj
    have hidx : m - (j + 1) < ns.length := by omega
    have hgd := shapedFrom_getD ns n0 syn bs h (m - (j + 1)) hidx
    have hr1 : (ESdown syn top m (j + 1)).r = (ESdown syn top m j).r := rfl
    have hc1 : (ESdown syn top m (j + 1)).c = (syn.getD (m - (j + 1)) dM).r := rfl
    exact ⟨hr1.trans (ih (by omega)).1, hc1.trans hgd.1⟩

/-! Bounds for the sigmoid activation. -/

theorem sigmoid_pos (x : ℝ) : 0 < sigmoid x := by
  unfold sigmoid
  have := Real.exp_pos (-x)
  positivity

theorem sigmoid_lt_one (x : ℝ) : sigmoid x < 1 := by
  unfold sigmoid
  have h := Real.exp_pos (-x)
  rw [div_lt_one (by linarith)]
  linarith

/-! Refinement of feedforward against the specification recurrence. -/

theorem AS_shift (W : NPMat) (b : NPVec) (syn : List NPMat) (bs : List NPVec)
    (a0 : NPVec) :
    ∀ i, AS (W :: syn) (b :: bs) a0 (i + 1) =
      AS syn bs (vmap sigmoid (vAddT (dotVMT a0 W) b)) i := by
  intro i
  induction i with
  | zero => simp [AS]
  | succ i ih =>
    show vmap sigmoid
        (vAddT (dotVMT (AS (W :: syn) (b :: bs) a0 (i + 1)) ((W :: syn).getD (i + 1) dM))
          ((b :: bs).getD (i + 1) dV)) = _
    rw [ih]
    rfl

theorem AM_shift (W : NPMat) (b : NPVec) (syn : List NPMat) (bs : List NPVec)
    (a0 : NPMat) :
    ∀ i, AM (W :: syn) (b :: bs) a0 (i + 1) =
      AM syn bs (mmap sigmoid (addRowT (matmulT a0 W) b)) i := by
  intro i
  induction i with
  | zero => simp [AM]
  | succ i ih =>
    show mmap sigmoid
        (addRowT (matmulT (AM (W :: syn) (b :: bs) a0 (i + 1)) ((W :: syn).getD (i + 1) dM))
          ((b :: bs).getD (i + 1) dV)) = _
    rw [ih]
    rfl

theorem ffLoopV_refine :
    ∀ (ns : List ℕ) (n0 : ℕ) (syn : List NPMat) (bs : List NPVec) (v : NPVec),
      ShapedFrom n0 syn bs ns → v.n = n0 →
      ffLoopV syn bs v = some (AS syn bs v syn.length) ∧
        (AS syn bs v syn.length).n = ns.getLastD n0 := by
  intro ns
  induction ns with
  | nil =>
    intro n0 syn bs v h hv
    match syn, bs with
    | [], [] => exact ⟨rfl, by simpa [AS] using hv⟩
    | [], _ :: _ => exact absurd h (by simp [ShapedFrom])
    | _ :: _, [] => exact absurd h (by simp [ShapedFrom])
    | _ :: _, _ :: _ => exact absurd h (by simp [ShapedFrom])
  | cons n1 ns2 ih =>
    intro n0 syn bs v h hv
    match syn, bs with
    | [], [] => exact absurd h (by simp [ShapedFrom])
    | [], _ :: _ => exact absurd h (by simp [ShapedFrom])
    | _ :: _, [] => exact absurd h (by simp [ShapedFrom])
    | W :: Ws, b :: bs2 =>
      obtain ⟨hr, hc, hb, h2⟩ := h
      have hdot : dotVM v W = some (dotVMT v W) := dotVM_eq v W (hv.trans hr.symm)
      have hz : (dotVMT v W).n = n1 := by simp [dotVMT, hc]
      have hadd : vAddB (dotVMT v W) b = some (vAddT (dotVMT v W) b) :=
        vAddB_eq _ b (hz.trans hb.symm)
      have hv2n : (vmap sigmoid (vAddT (dotVMT v W) b)).n = n1 := hz
      have hrec := ih n1 Ws bs2 (vmap sigmoid (vAddT (dotVMT v W) b)) h2 hv2n
      constructor
      · show ffLoopV (W :: Ws) (b :: bs2) v = _
        simp only [ffLoopV, hdot, hadd]
        rw [hrec.1]
        simp only [List.length_cons, AS_shift]
      · simp only [List.length_cons, AS_shift]
        rw [hrec.2]
        exact (List.getLastD_cons n0 n1 ns2).symm

theorem ffLoopM_refine :
    ∀ (ns : List ℕ) (n0 : ℕ) (syn : List NPMat) (bs : List NPVec) (x : NPMat),
      ShapedFrom n0 syn bs ns → x.c = n0 →
      ffLoopM syn bs x = some (AM syn bs x syn.length) ∧
        (AM syn bs x syn.length).r = x.r ∧
        (AM syn bs x syn.length).c = ns.getLastD n0 := by
  intro ns
  induction ns with
  | nil =>
    intro n0 syn bs x h hx
    match syn, bs with
    | [], [] => exact ⟨rfl, rfl, by simpa [AM] using hx⟩
    | [], _ :: _ => exact absurd h (by simp [ShapedFrom])
    | _ :: _, [] => exact absurd h (by simp [ShapedFrom])
    | _ :: _, _ :: _ => exact absurd h (by simp [ShapedFrom])
  | cons n1 ns2 ih =>
    intro n0 syn bs x h hx
    match syn, bs with
    | [], [] => exact absurd h (by simp [ShapedFrom])
    | [], _ :: _ => exact absurd h (by simp [ShapedFrom])
    | _ :: _, [] => exact absurd h (by simp [ShapedFrom])
    | W :: Ws, b :: bs2 =>
      obtain ⟨hr, hc, hb, h2⟩ := h
      have hdot : matmulO x W = some (matmulT x W) :=
        matmulO_eq x W (hx.trans hr.symm)
      have hz : (matmulT x W).c = n1 := by simp [matmulT, hc]
      have hadd : addRowB (matmulT x W) b = some (addRowT (matmulT x W) b) :=
        addRowB_eq _ b (hz.trans hb.symm)
      have hx2c : (mmap sigmoid (addRowT (matmulT x W) b)).c = n1 := hz
      have hrec := ih n1 Ws bs2 (mmap sigmoid (addRowT (matmulT x W) b)) h2 hx2c
      refine ⟨?_, ?_, ?_⟩
      · show ffLoopM (W :: Ws) (b :: bs2) x = _
        simp only [ffLoopM, hdot, hadd]
        rw [hrec.1]
        simp only [List.length_cons, AM_shift]
      · simp only [List.length_cons, AM_shift]
        rw [hrec.2.1]
        rfl
      · simp only [List.length_cons, AM_shift]
        rw [hrec.2.2]
        exact (List.getLastD_cons n0 n1 ns2).symm

/-- Every output of a feedforward pass through at least one layer
transition is an elementwise sigmoid value. -/
theorem ffLoopV_sigmoid_out :
    ∀ (syn : List NPMat) (bs : List NPVec) (v w : NPVec),
      syn ≠ [] → ffLoopV syn bs v = some w → ∀ j, 0 < w.f j ∧ w.f j < 1 := by
  intro syn
  induction syn with
  | nil => intro bs v w hne; exact absurd rfl hne
  | cons W Ws ih =>
    intro bs v w _ hrun j
    rw [ffLoopV] at hrun
    cases hd : dotVM v W with
    | none =>
      simp only [hd] at hrun
      exact Option.noConfusion hrun
    | some z =>
      simp only [hd] at hrun
      match bs with
      | [] => simp at hrun
      | b :: bs2 =>
        cases ha : vAddB z b with
        | none =>
          simp only [ha] at hrun
          exact Option.noConfusion hrun
        | some z2 =>
          simp only [ha] at hrun
          match Ws with
          | [] =>
            have hw : vmap sigmoid z2 = w := by
              apply Option.some.inj
              simpa [ffLoopV] using hrun
            rw [← hw]
            exact ⟨sigmoid_pos _, sigmoid_lt_one _⟩
          | W2 :: Ws2 =>
            exact ih bs2 (vmap sigmoid z2) w (by simp) hrun j

/-- C1.  Evaluate computes activations by the recurrence a_(i+1) =
sigmoid (a_i · weights[i] + biases[i]) starting from the raw input,
returns the final activation of width equal to the last layer size, and
keeps the shape convention: a 1-D input yields the 1-D recurrence value
and a 2-D batch yields the 2-D recurrence value with the same row
count. -/
theorem evaluate_follows_recurrence (n0 : ℕ) (ns : List ℕ) (p : Perceptron)
    (h : ShapedFrom n0 p.synapses p.biases ns)
    (inpV : NPVec) (hv : inpV.n = n0) (inpM : NPMat) (hm : inpM.c = n0) :
    feedforwardV p inpV = some (AS p.synapses p.biases inpV p.synapses.length) ∧
    (AS p.synapses p.biases inpV p.synapses.length).n = ns.getLastD n0 ∧
    feedforwardM p inpM = some (AM p.synapses p.biases inpM p.synapses.length) ∧
    (AM p.synapses p.biases inpM p.synapses.length).r = inpM.r ∧
    (AM p.synapses p.biases inpM p.synapses.length).c = ns.getLastD n0 := by
  have hV := ffLoopV_refine ns n0 p.synapses p.biases inpV h hv
  have hM := ffLoopM_refine ns n0 p.synapses p.biases inpM h hm
  exact ⟨hV.1, hV.2, hM.1, hM.2.1, hM.2.2⟩

/-- A concrete one-synapse network with zero parameters, and concrete
zero inputs, used to instantiate the hypothesised theorems. -/
def W11 : NPMat := ⟨1, 1, fun _ _ => 0⟩

/-- A concrete 2-by-1 zero synapse matrix. -/
def W21 : NPMat := ⟨2, 1, fun _ _ => 0⟩

/-- A concrete zero bias of length 1. -/
def b1 : NPVec := ⟨1, fun _ => 0⟩

/-- A concrete network with layer sizes [1, 1]. -/
def P11 : Perceptron := ⟨[W11], [b1]⟩

/-- A concrete network with layer sizes [2, 1]. -/
def P21 : Perceptron := ⟨[W21], [b1]⟩

/-- A concrete zero input vector of width 1. -/
def v1 : NPVec := ⟨1, fun _ => 0⟩

/-- A concrete zero batch with 1 row and 1 column. -/
def inp11 : NPMat := ⟨1, 1, fun _ _ => 0⟩

/-- A concrete zero batch with 1 row and 2 columns. -/
def inp12 : NPMat := ⟨1, 2, fun _ _ => 0⟩

/-- A concrete zero batch with 3 rows and 1 column. -/
def inp31 : NPMat := ⟨3, 1, fun _ _ => 0⟩

/-- A concrete all-ones target batch with 1 row and 1 column. -/
def out11 : NPMat := ⟨1, 1, fun _ _ => 1⟩

theorem shaped_P11 : ShapedFrom 1 P11.synapses P11.biases [1] := by
  simp [ShapedFrom, P11, W11, b1]

/-- Witness for C1 on the concrete [1, 1] network and zero inputs. -/
theorem evaluate_follows_recurrence_wit :
    feedforwardV P11 v1 = some (AS P11.synapses P11.biases v1 P11.synapses.length) ∧
    (AS P11.synapses P11.biases v1 P11.synapses.length).n = [1].getLastD 1 ∧
    feedforwardM P11 inp11 = some (AM P11.synapses P11.biases inp11 P11.synapses.length) ∧
    (AM P11.synapses P11.biases inp11 P11.synapses.length).r = inp11.r ∧
    (AM P11.synapses P11.biases inp11 P11.synapses.length).c = [1].getLastD 1 :=
  evaluate_follows_recurrence 1 [1] P11 shaped_P11 v1 rfl inp11 rfl

/-- C8.  On a network with at least two layers and an input of the
correct width, Evaluate succeeds and every component of its output lies
strictly between 0 and 1. -/
theorem evaluate_output_open_unit (n0 n1 : ℕ) (ns : List ℕ) (p : Perceptron)
    (h : ShapedFrom n0 p.synapses p.biases (n1 :: ns))
    (inp : NPVec) (hv : inp.n = n0) :
    (feedforwardV p inp).isSome = true ∧
      ∀ w, feedforwardV p inp = some w → ∀ j, 0 < w.f j ∧ w.f j < 1 := by
  have href := ffLoopV_refine (n1 :: ns) n0 p.synapses p.biases inp h hv
  have hne : p.synapses ≠ [] := by
    have := shapedFrom_lengths (n1 :: ns) n0 p.synapses p.biases h
    intro hements
    rw [hements] at this
    simp at this
  constructor
  · rw [show feedforwardV p inp = _ from href.1]; rfl
  · intro w hw
    exact ffLoopV_sigmoid_out p.synapses p.biases inp w hne hw

/-- Witness for C8 on the concrete [1, 1] network and zero input. -/
theorem evaluate_output_open_unit_wit :
    (feedforwardV P11 v1).isSome = true ∧
      ∀ w, feedforwardV P11 v1 = some w → ∀ j, 0 < w.f j ∧ w.f j < 1 :=
  evaluate_output_open_unit 1 1 [] P11 shaped_P11 v1 rfl

/-! Additional list lemmas for the indexed listings. -/

theorem tailMap_congr_lt {α : Type} {f g : ℕ → α} :
    ∀ k t, (∀ i, t ≤ i → i < t + k → f i = g i) → tailMap f t k = tailMap g t k := by
  intro k
  induction k with
  | zero => intro t _; rfl
  | succ k ih =>
    intro t h
    simp only [tailMap]
    rw [h t (le_refl t) (by omega),
      ih (t + 1) (fun i h1 h2 => h i (by omega) (by omega))]

theorem tailMap_snoc {α : Type} (f : ℕ → α) :
    ∀ k t, tailMap f t (k + 1) = tailMap f t k ++ [f (t + k)] := by
  intro k
  induction k with
  | zero => intro t; simp [tailMap]
  | succ k ih =>
    intro t
    have h1 : tailMap f t (k + 1 + 1) = f t :: tailMap f (t + 1) (k + 1) := rfl
    have h2 : tailMap f t (k + 1) = f t :: tailMap f (t + 1) k := rfl
    rw [h1, ih (t + 1), h2]
    simp only [List.cons_append]
    rw [show t + 1 + k = t + (k + 1) from by omega]

theorem tailMap_getLastD {α : Type} (f : ℕ → α) :
    ∀ k t (d : α), (tailMap f t (k + 1)).getLastD d = f (t + k) := by
  intro k
  induction k with
  | zero => intro t d; simp [tailMap]
  | succ k ih =>
    intro t d
    show (f t :: tailMap f (t + 1) (k + 1)).getLastD d = f (t + (k + 1))
    rw [List.getLastD_cons]
    rw [ih (t + 1) (f t)]
    exact congrArg f (by omega)

theorem getD_drop {α : Type} (d : α) :
    ∀ (l : List α) (n i : ℕ), (l.drop n).getD i d = l.getD (n + i) d := by
  intro l
  induction l with
  | nil => intro n i; simp
  | cons a l2 ih =>
    intro n i
    match n with
    | 0 => simp
    | Nat.succ n2 =>
      show (l2.drop n2).getD i d = _
      rw [ih n2 i]
      rw [show n2.succ + i = (n2 + i) + 1 from by omega]
      simp

theorem reverse_eq_tailMap {α : Type} (d : α) :
    ∀ l : List α,
      l.reverse = tailMap (fun u => l.getD (l.length - 1 - u) d) 0 l.length := by
  intro l
  induction l with
  | nil => rfl
  | cons a l2 ih =>
    rw [List.reverse_cons]
    rw [show (a :: l2).length = l2.length + 1 from rfl, tailMap_snoc]
    congr 1
    · rw [ih]
      apply tailMap_congr_lt
      intro i h0 hi
      have h1 : l2.length + 1 - 1 - i = (l2.length - 1 - i) + 1 ∨ l2.length = 0 := by omega
      rcases h1 with h1 | h1
      · rw [h1]; rfl
      · omega
    · simp

/-- The reversed tail of the synapse list, which the backpropagation
loop traverses, listed by descending index. -/
theorem drop1_reverse_eq (syn : List NPMat) :
    (syn.drop 1).reverse =
      tailMap (fun u => syn.getD (syn.length - 1 - u) dM) 0 (syn.length - 1) := by
  rw [reverse_eq_tailMap dM]
  have hlen : (syn.drop 1).length = syn.length - 1 := by simp
  rw [hlen]
  apply tailMap_congr_lt
  intro i h0 hi
  rw [getD_drop]
  exact congrArg (fun t => syn.getD t dM) (by omega)

/-! Refinement of the trainer forward pass. -/

theorem SS_shift (W : NPMat) (b : NPVec) (syn : List NPMat) (bs : List NPVec)
    (inp : NPMat) :
    ∀ i, SS (W :: syn) (b :: bs) inp (i + 1) =
      SS syn bs (addRowT (matmulT (mmap sigmoid inp) W) b) i := by
  intro i
  induction i with
  | zero => simp [SS]
  | succ i ih =>
    show addRowT
        (matmulT (mmap sigmoid (SS (W :: syn) (b :: bs) inp (i + 1)))
          ((W :: syn).getD (i + 1) dM)) ((b :: bs).getD (i + 1) dV) = _
    rw [ih]
    rfl

theorem XS_shift (W : NPMat) (b : NPVec) (syn : List NPMat) (bs : List NPVec)
    (inp : NPMat) (i : ℕ) :
    XS (W :: syn) (b :: bs) inp (i + 1) =
      XS syn bs (addRowT (matmulT (mmap sigmoid inp) W) b) i := by
  unfold XS
  rw [SS_shift]

/-- The forward pass with memory succeeds on a well-shaped network and
input of the correct width, and returns exactly the lists of the
specification pre-activations S and activations X. -/
theorem forwardMem_refine :
    ∀ (ns : List ℕ) (n0 : ℕ) (syn : List NPMat) (bs : List NPVec) (inp : NPMat),
      ShapedFrom n0 syn bs ns → inp.c = n0 →
      forwardMem syn bs inp =
        some (tailMap (SS syn bs inp) 0 (syn.length + 1),
              tailMap (XS syn bs inp) 0 (syn.length + 1)) := by
  intro ns
  induction ns with
  | nil =>
    intro n0 syn bs inp h hc
    match syn, bs with
    | [], [] => rfl
    | [], _ :: _ => exact absurd h (by simp [ShapedFrom])
    | _ :: _, [] => exact absurd h (by simp [ShapedFrom])
    | _ :: _, _ :: _ => exact absurd h (by simp [ShapedFrom])
  | cons n1 ns2 ih =>
    intro n0 syn bs inp h hc
    match syn, bs with
    | [], [] => exact absurd h (by simp [ShapedFrom])
    | [], _ :: _ => exact absurd h (by simp [ShapedFrom])
    | _ :: _, [] => exact absurd h (by simp [ShapedFrom])
    | W :: Ws, b :: bs2 =>
      obtain ⟨hr, hc1, hb, h2⟩ := h
      have hdot : matmulO (mmap sigmoid inp) W = some (matmulT (mmap sigmoid inp) W) :=
        matmulO_eq _ W (hc.trans hr.symm)
      have hz : (matmulT (mmap sigmoid inp) W).c = n1 := by simp [matmulT, hc1]
      have hadd : addRowB (matmulT (mmap sigmoid inp) W) b =
          some (addRowT (matmulT (mmap sigmoid inp) W) b) :=
        addRowB_eq _ b (hz.trans hb.symm)
      have hs1c : (addRowT (matmulT (mmap sigmoid inp) W) b).c = n1 := hz
      have hrec := ih n1 Ws bs2 (addRowT (matmulT (mmap sigmoid inp) W) b) h2 hs1c
      show forwardMem (W :: Ws) (b :: bs2) inp = _
      rw [forwardMem, hdot]
      simp only
      rw [hadd]
      simp only
      rw [hrec]
      simp only [List.length_cons]
      congr 1
      congr 1
      · show inp :: _ = tailMap (SS (W :: Ws) (b :: bs2) inp) 0 (Ws.length + 1 + 1)
        rw [show Ws.length + 1 + 1 = (Ws.length + 1) + 1 from rfl]
        show _ = SS (W :: Ws) (b :: bs2) inp 0 ::
          tailMap (SS (W :: Ws) (b :: bs2) inp) 1 (Ws.length + 1)
        rw [tailMap_shift]
        exact congrArg (inp :: ·)
          (tailMap_congr (fun i => (SS_shift W b Ws bs2 inp i).symm) (Ws.length + 1) 0)
      · show mmap sigmoid inp :: _ = tailMap (XS (W :: Ws) (b :: bs2) inp) 0 (Ws.length + 1 + 1)
        show _ = XS (W :: Ws) (b :: bs2) inp 0 ::
          tailMap (XS (W :: Ws) (b :: bs2) inp) 1 (Ws.length + 1)
        rw [tailMap_shift]
        exact congrArg (mmap sigmoid inp :: ·)
          (tailMap_congr (fun i => (XS_shift W b Ws bs2 inp i).symm) (Ws.length + 1) 0)

/-! Refinement of the error backpropagation loop. -/

theorem ES_top (syn : List NPMat) (top : NPMat) (m : ℕ) : ES syn top m m = top := by
  unfold ES
  rw [Nat.sub_self]
  rfl

theorem ES_step (syn : List NPMat) (top : NPMat) (m k : ℕ) (hk : k + 1 ≤ m) :
    ES syn top m k = matmulT (ES syn top m (k + 1)) (transposeM (syn.getD k dM)) := by
  unfold ES
  have h1 : m - k = (m - (k + 1)) + 1 := by omega
  rw [h1]
  show matmulT (ESdown syn top m (m - (k + 1)))
      (transposeM (syn.getD (m - ((m - (k + 1)) + 1)) dM)) = _
  rw [show m - ((m - (k + 1)) + 1) = k from by omega]

theorem backLoop_nil (acc : List NPMat) : backLoop acc [] = some acc := rfl

theorem backLoop_cons (e : NPMat) (acctail : List NPMat) (s : NPMat)
    (rest : List NPMat) :
    backLoop (e :: acctail) (s :: rest) =
      match matmulO e (transposeM s) with
      | none => none
      | some e2 => backLoop (e2 :: e :: acctail) rest := rfl

theorem backLoop_go (ns : List ℕ) (n0 : ℕ) (syn : List NPMat) (bs : List NPVec)
    (top : NPMat) (m : ℕ) (h : ShapedFrom n0 syn bs ns) (hm : m = syn.length)
    (hm1 : 1 ≤ m) (htc : top.c = (n0 :: ns).getD m 0) :
    ∀ k t, t + k = m - 1 →
      backLoop (tailMap (fun i => ES syn top m (m - t + i)) 0 (t + 1))
               (tailMap (fun u => syn.getD (m - 1 - (t + u)) dM) 0 k) =
      some (tailMap (fun i => ES syn top m (i + 1)) 0 m) := by
  have hmn : m = ns.length := by
    rw [hm]; exact (shapedFrom_lengths ns n0 syn bs h).1
  intro k
  induction k with
  | zero =>
    intro t ht
    rw [show tailMap (fun u => syn.getD (m - 1 - (t + u)) dM) 0 0 = [] from rfl]
    rw [backLoop_nil]
    congr 1
    rw [show t + 1 = (m - 1) + 1 from by omega, show (m - 1) + 1 = m from by omega]
    apply tailMap_congr_lt
    intro i _ _
    exact congrArg (ES syn top m) (by omega)
  | succ k ih =>
    intro t ht
    have hacc : tailMap (fun i => ES syn top m (m - t + i)) 0 (t + 1) =
        ES syn top m (m - t + 0) ::
          tailMap (fun i => ES syn top m (m - t + i)) 1 t := rfl
    have hrev : tailMap (fun u => syn.getD (m - 1 - (t + u)) dM) 0 (k + 1) =
        syn.getD (m - 1 - (t + 0)) dM ::
          tailMap (fun u => syn.getD (m - 1 - (t + u)) dM) 1 k := rfl
    rw [hacc, hrev, backLoop_cons]
    have hEt : ES syn top m (m - t + 0) = ESdown syn top m t := by
      unfold ES
      exact congrArg (ESdown syn top m) (by omega)
    have hEsh := ESdown_shape ns n0 syn bs top m h hmn htc t (by omega)
    have hgd := shapedFrom_getD ns n0 syn bs h (m - 1 - (t + 0)) (by omega)
    have hsome : matmulO (ES syn top m (m - t + 0))
        (transposeM (syn.getD (m - 1 - (t + 0)) dM)) =
        some (matmulT (ES syn top m (m - t + 0))
          (transposeM (syn.getD (m - 1 - (t + 0)) dM))) := by
      apply matmulO_eq
      show (ES syn top m (m - t + 0)).c = (syn.getD (m - 1 - (t + 0)) dM).c
      rw [hEt, hEsh.2, hgd.2.1]
      rw [show m - t = (m - 1 - (t + 0)) + 1 from by omega]
      simp
    rw [hsome]
    have he2 : ES syn top m (m - (t + 1)) =
        matmulT (ES syn top m (m - t + 0))
          (transposeM (syn.getD (m - 1 - (t + 0)) dM)) := by
      have hs := ES_step syn top m (m - (t + 1)) (by omega)
      rw [hs]
      rw [show m - (t + 1) + 1 = m - t + 0 from by omega]
      rw [show m - (t + 1) = m - 1 - (t + 0) from by omega]
    show backLoop (matmulT (ES syn top m (m - t + 0))
        (transposeM (syn.getD (m - 1 - (t + 0)) dM)) ::
        ES syn top m (m - t + 0) ::
        tailMap (fun i => ES syn top m (m - t + i)) 1 t)
        (tailMap (fun u => syn.getD (m - 1 - (t + u)) dM) 1 k) = _
    rw [← he2, ← hacc]
    have hnew : tailMap (fun i => ES syn top m (m - (t + 1) + i)) 0 ((t + 1) + 1) =
        ES syn top m (m - (t + 1)) ::
          tailMap (fun i => ES syn top m (m - t + i)) 0 (t + 1) := by
      show ES syn top m (m - (t + 1) + 0) ::
          tailMap (fun i => ES syn top m (m - (t + 1) + i)) 1 (t + 1) = _
      rw [tailMap_shift]
      have hcg : tailMap (fun i => ES syn top m (m - (t + 1) + (i + 1))) 0 (t + 1) =
          tailMap (fun i => ES syn top m (m - t + i)) 0 (t + 1) :=
        tailMap_congr (fun i => congrArg (ES syn top m) (by omega)) (t + 1) 0
      rw [hcg]
      exact congrArg (fun j => ES syn top m j ::
        tailMap (fun i => ES syn top m (m - t + i)) 0 (t + 1))
        (by omega : m - (t + 1) + 0 = m - (t + 1))
    have hrest : tailMap (fun u => syn.getD (m - 1 - (t + u)) dM) 1 k =
        tailMap (fun u => syn.getD (m - 1 - ((t + 1) + u)) dM) 0 k := by
      rw [tailMap_shift]
      apply tailMap_congr
      intro u
      exact congrArg (fun j => syn.getD j dM) (by omega)
    rw [← hnew, hrest]
    exact ih (t + 1) (by omega)

/-- Error backpropagation on a well-shaped network succeeds and returns
exactly the list [E 1, ..., E m] of the specification errors. -/
theorem backE_refine (ns : List ℕ) (n0 : ℕ) (syn : List NPMat) (bs : List NPVec)
    (top : NPMat) (h : ShapedFrom n0 syn bs ns) (hm1 : 1 ≤ syn.length)
    (htc : top.c = (n0 :: ns).getD syn.length 0) :
    backE syn top =
      some (tailMap (fun i => ES syn top syn.length (i + 1)) 0 syn.length) := by
  unfold backE
  rw [drop1_reverse_eq]
  have hacc : tailMap (fun i => ES syn top syn.length (syn.length - 0 + i)) 0 (0 + 1) =
      [top] := by
    show [ES syn top syn.length (syn.length - 0 + 0)] = [top]
    rw [show syn.length - 0 + 0 = syn.length from by omega, ES_top]
  have hrev : tailMap (fun u => syn.getD (syn.length - 1 - u) dM) 0 (syn.length - 1) =
      tailMap (fun u => syn.getD (syn.length - 1 - (0 + u)) dM) 0 (syn.length - 1) := by
    apply tailMap_congr
    intro u
    exact congrArg (fun j => syn.getD j dM) (by omega)
  rw [← hacc, hrev]
  exact backLoop_go ns n0 syn bs top syn.length h rfl hm1 htc (syn.length - 1) 0
    (by omega)

/-! Refinement of the update loop. -/

theorem updLoop_nil (lr : ℝ) (bs : List NPVec) (E S X : List NPMat) :
    updLoop lr [] bs E S X = .ok ([], bs) := rfl

theorem updLoop_cons (lr : ℝ) (W : NPMat) (Ws : List NPMat) (bs : List NPVec)
    (e : NPMat) (E2 : List NPMat) (s : NPMat) (S2 : List NPMat) (x : NPMat)
    (X2 : List NPMat) :
    updLoop lr (W :: Ws) bs (e :: E2) (s :: S2) (x :: X2) =
      match mulB e (mmap deriv_sigmoid s) with
      | none => .error (W :: Ws, bs)
      | some grad =>
        match matmulO (transposeM grad) x with
        | none => .error (W :: Ws, bs)
        | some dwT =>
          match iaddM W (smulM lr (transposeM dwT)) with
          | none => .error (W :: Ws, bs)
          | some W2 =>
            match bs with
            | [] => .error (W2 :: Ws, [])
            | b :: bs2 =>
              match iaddV b (smulV lr (meanAxis0 (transposeM dwT))) with
              | none => .error (W2 :: Ws, b :: bs2)
              | some b2 =>
                match updLoop lr Ws bs2 E2 S2 X2 with
                | .error p2 => .error (W2 :: p2.1, b2 :: p2.2)
                | .ok p2 => .ok (W2 :: p2.1, b2 :: p2.2) := rfl

theorem updLoop_go (ns : List ℕ) (n0 : ℕ) (syn : List NPMat) (bs : List NPVec)
    (inp out : NPMat) (lr : ℝ) (h : ShapedFrom n0 syn bs ns) (hc : inp.c = n0)
    (hor : out.r = inp.r) (hoc : out.c = (n0 :: ns).getD syn.length 0) :
    ∀ k t, t + k = syn.length →
      updLoop lr (tailMap (fun i => syn.getD i dM) t k)
        (tailMap (fun i => bs.getD i dV) t k)
        (tailMap (fun i => ES syn (topErr syn bs inp out) syn.length (i + 1)) t k)
        (tailMap (fun i => SS syn bs inp (i + 1)) t k)
        (tailMap (fun i => XS syn bs inp i) t (k + 1)) =
      .ok (tailMap (fun i => updWS lr syn bs inp out i) t k,
           tailMap (fun i => updBS lr syn bs inp out i) t k) := by
  have hmn : syn.length = ns.length := (shapedFrom_lengths ns n0 syn bs h).1
  intro k
  induction k with
  | zero => intro t ht; rfl
  | succ k ih =>
    intro t ht
    have htlt : t < ns.length := by omega
    have hE1 : ES syn (topErr syn bs inp out) syn.length (t + 1) =
        ESdown syn (topErr syn bs inp out) syn.length (syn.length - (t + 1)) := rfl
    have hEsh := ESdown_shape ns n0 syn bs (topErr syn bs inp out) syn.length h
      hmn hoc (syn.length - (t + 1)) (by omega)
    have hEr : (ES syn (topErr syn bs inp out) syn.length (t + 1)).r = inp.r := by
      rw [hE1, hEsh.1]; exact hor
    have hEc : (ES syn (topErr syn bs inp out) syn.length (t + 1)).c =
        (n0 :: ns).getD (t + 1) 0 := by
      rw [hE1, hEsh.2]
      exact congrArg (fun j => (n0 :: ns).getD j 0) (by omega)
    have hSsh := SS_shape ns n0 syn bs inp h hc (t + 1) (by omega)
    have hXsh := XS_shape ns n0 syn bs inp h hc t (by omega)
    have hgd := shapedFrom_getD ns n0 syn bs h t htlt
    have hgrad : mulB (ES syn (topErr syn bs inp out) syn.length (t + 1))
        (mmap deriv_sigmoid (SS syn bs inp (t + 1))) =
        some (hadT (ES syn (topErr syn bs inp out) syn.length (t + 1))
          (mmap deriv_sigmoid (SS syn bs inp (t + 1)))) := by
      apply mulB_eq
      · show (ES syn (topErr syn bs inp out) syn.length (t + 1)).r =
          (SS syn bs inp (t + 1)).r
        rw [hEr, hSsh.1]
      · show (ES syn (topErr syn bs inp out) syn.length (t + 1)).c =
          (SS syn bs inp (t + 1)).c
        rw [hEc, hSsh.2]
    have hgradS : hadT (ES syn (topErr syn bs inp out) syn.length (t + 1))
        (mmap deriv_sigmoid (SS syn bs inp (t + 1))) = gradS syn bs inp out t := rfl
    have hgr : (gradS syn bs inp out t).r = inp.r := hEr
    have hdwT : matmulO (transposeM (gradS syn bs inp out t)) (XS syn bs inp t) =
        some (matmulT (transposeM (gradS syn bs inp out t)) (XS syn bs inp t)) := by
      apply matmulO_eq
      show (gradS syn bs inp out t).r = (XS syn bs inp t).r
      rw [hgr, hXsh.1]
    have hdw : transposeM (matmulT (transposeM (gradS syn bs inp out t))
        (XS syn bs inp t)) = dwS syn bs inp out t := by
      have hx : (XS syn bs inp t).r = (gradS syn bs inp out t).r := by
        rw [hXsh.1, hgr]
      exact transpose_dw (gradS syn bs inp out t) (XS syn bs inp t) hx
    have hdwr : (dwS syn bs inp out t).r = (n0 :: ns).getD t 0 := by
      show (XS syn bs inp t).c = _
      rw [hXsh.2]
    have hdwc : (dwS syn bs inp out t).c = ns.getD t 0 := by
      show (gradS syn bs inp out t).c = _
      rw [show (gradS syn bs inp out t).c =
        (ES syn (topErr syn bs inp out) syn.length (t + 1)).c from rfl]
      rw [hEc]
      simp
    have hW : iaddM (syn.getD t dM) (smulM lr (dwS syn bs inp out t)) =
        some (matAddT (syn.getD t dM) (smulM lr (dwS syn bs inp out t))) := by
      apply iaddM_eq
      · show (dwS syn bs inp out t).r = (syn.getD t dM).r
        rw [hdwr, hgd.1]
      · show (dwS syn bs inp out t).c = (syn.getD t dM).c
        rw [hdwc, hgd.2.1]
    have hB : iaddV (bs.getD t dV) (smulV lr (meanAxis0 (dwS syn bs inp out t))) =
        some (vAddT (bs.getD t dV)
          (smulV lr (meanAxis0 (dwS syn bs inp out t)))) := by
      apply iaddV_eq
      show (dwS syn bs inp out t).c = (bs.getD t dV).n
      rw [hdwc, hgd.2.2]
    show updLoop lr
        (syn.getD t dM :: tailMap (fun i => syn.getD i dM) (t + 1) k)
        (bs.getD t dV :: tailMap (fun i => bs.getD i dV) (t + 1) k)
        (ES syn (topErr syn bs inp out) syn.length (t + 1) ::
          tailMap (fun i => ES syn (topErr syn bs inp out) syn.length (i + 1)) (t + 1) k)
        (SS syn bs inp (t + 1) ::
          tailMap (fun i => SS syn bs inp (i + 1)) (t + 1) k)
        (XS syn bs inp t ::
          tailMap (fun i => XS syn bs inp i) (t + 1) (k + 1)) = _
    rw [updLoop_cons]
    simp only [hgrad, hgradS, hdwT, hdw, hW, hB, ih (t + 1) (by omega)]
    rfl

/-- One training epoch on a well-shaped network with width-correct
input and target batches of equal row counts succeeds and produces
exactly the specification update: weights[i] becomes weights[i] + lr ·
dw i and biases[i] becomes biases[i] + lr · mean over rows of dw i. -/
theorem epochStep_refine (ns : List ℕ) (n0 n1 : ℕ) (syn : List NPMat)
    (bs : List NPVec) (inp out : NPMat) (lr : ℝ)
    (h : ShapedFrom n0 syn bs (n1 :: ns)) (hc : inp.c = n0)
    (hor : out.r = inp.r) (hoc : out.c = (n0 :: n1 :: ns).getD syn.length 0) :
    epochStep lr inp out (syn, bs) =
      .ok (tailMap (fun i => updWS lr syn bs inp out i) 0 syn.length,
           tailMap (fun i => updBS lr syn bs inp out i) 0 syn.length) := by
  have hmn : syn.length = (n1 :: ns).length :=
    (shapedFrom_lengths (n1 :: ns) n0 syn bs h).1
  have hm1 : 1 ≤ syn.length := by rw [hmn]; simp
  have hfwd := forwardMem_refine (n1 :: ns) n0 syn bs inp h hc
  show (match forwardMem syn bs inp with
    | none => Except.error (syn, bs)
    | some SX =>
      match subB out (SX.2.getLastD dM) with
      | none => Except.error (syn, bs)
      | some eTop =>
        match backE syn eTop with
        | none => Except.error (syn, bs)
        | some E => updLoop lr syn bs E (SX.1.drop 1) SX.2) = _
  rw [hfwd]
  simp only
  have hlast : (tailMap (XS syn bs inp) 0 (syn.length + 1)).getLastD dM =
      XS syn bs inp syn.length := by
    rw [tailMap_getLastD]
    exact congrArg (XS syn bs inp) (by omega)
  rw [hlast]
  have hXsh := XS_shape (n1 :: ns) n0 syn bs inp h hc syn.length (by omega)
  have hsub : subB out (XS syn bs inp syn.length) =
      some (matSubT out (XS syn bs inp syn.length)) := by
    apply subB_eq
    · rw [hor, hXsh.1]
    · rw [hoc, hXsh.2, hmn]
  rw [hsub]
  simp only
  have hback := backE_refine (n1 :: ns) n0 syn bs
    (matSubT out (XS syn bs inp syn.length)) h hm1 hoc
  rw [hback]
  simp only
  have hdrop : (tailMap (SS syn bs inp) 0 (syn.length + 1)).drop 1 =
      tailMap (fun i => SS syn bs inp (i + 1)) 0 syn.length := by
    show (SS syn bs inp 0 :: tailMap (SS syn bs inp) 1 (syn.length)).drop 1 = _
    rw [List.drop_one, List.tail_cons, tailMap_shift]
  rw [hdrop]
  have hsyn : syn = tailMap (fun i => syn.getD i dM) 0 syn.length :=
    list_eq_tailMap dM syn
  have hbsl : bs.length = syn.length := by
    rw [hmn]; exact (shapedFrom_lengths (n1 :: ns) n0 syn bs h).2
  have hbs2 : bs = tailMap (fun i => bs.getD i dV) 0 syn.length := by
    conv_lhs => rw [list_eq_tailMap dV bs]
    rw [hbsl]
  have hgo := updLoop_go (n1 :: ns) n0 syn bs inp out lr h hc hor hoc
    syn.length 0 (by omega)
  rw [← hsyn] at hgo
  rw [← hbs2] at hgo
  exact hgo

/-- The shape of the specification weight delta: dw i has
layer_sizes[i] rows. -/
theorem dwS_rows (ns : List ℕ) (n0 : ℕ) (syn : List NPMat) (bs : List NPVec)
    (inp out : NPMat) (h : ShapedFrom n0 syn bs ns) (hc : inp.c = n0)
    (i : ℕ) (hi : i < ns.length) :
    (dwS syn bs inp out i).r = (n0 :: ns).getD i 0 := by
  show (XS syn bs inp i).c = _
  exact (XS_shape ns n0 syn bs inp h hc i (by omega)).2

/-- C2.  In every training epoch the forward pass uses X 0 =
sigmoid (input) as the first activation, each later layer follows
S (i+1) = X i · weights[i] + biases[i] and X (i+1) = sigmoid (S (i+1)),
and this differs from Evaluate, whose recurrence starts from the raw
input: at the concrete zero input the two first activations differ. -/
theorem trainer_first_activation_sigmoid (ns : List ℕ) (n0 : ℕ)
    (p : Perceptron) (inp : NPMat)
    (h : ShapedFrom n0 p.synapses p.biases ns) (hc : inp.c = n0) :
    forwardMem p.synapses p.biases inp =
      some (tailMap (SS p.synapses p.biases inp) 0 (p.synapses.length + 1),
            tailMap (XS p.synapses p.biases inp) 0 (p.synapses.length + 1)) ∧
    XS p.synapses p.biases inp 0 = mmap sigmoid inp ∧
    (∀ i, SS p.synapses p.biases inp (i + 1) =
        addRowT (matmulT (XS p.synapses p.biases inp i) (p.synapses.getD i dM))
          (p.biases.getD i dV) ∧
      XS p.synapses p.biases inp (i + 1) =
        mmap sigmoid (SS p.synapses p.biases inp (i + 1))) ∧
    (∀ v : NPVec, AS p.synapses p.biases v 0 = v) ∧
    (mmap sigmoid inp11).f 0 0 ≠ inp11.f 0 0 := by
  refine ⟨forwardMem_refine ns n0 p.synapses p.biases inp h hc, rfl,
    fun i => ⟨rfl, rfl⟩, fun v => rfl, ?_⟩
  show sigmoid (inp11.f 0 0) ≠ inp11.f 0 0
  show sigmoid 0 ≠ (0 : ℝ)
  unfold sigmoid
  rw [neg_zero, Real.exp_zero]
  norm_num

/-- Witness for C2 on the concrete [1, 1] network and zero batch. -/
theorem trainer_first_activation_sigmoid_wit :
    forwardMem P11.synapses P11.biases inp11 =
      some (tailMap (SS P11.synapses P11.biases inp11) 0 (P11.synapses.length + 1),
            tailMap (XS P11.synapses P11.biases inp11) 0 (P11.synapses.length + 1)) ∧
    XS P11.synapses P11.biases inp11 0 = mmap sigmoid inp11 ∧
    (∀ i, SS P11.synapses P11.biases inp11 (i + 1) =
        addRowT (matmulT (XS P11.synapses P11.biases inp11 i)
          (P11.synapses.getD i dM)) (P11.biases.getD i dV) ∧
      XS P11.synapses P11.biases inp11 (i + 1) =
        mmap sigmoid (SS P11.synapses P11.biases inp11 (i + 1))) ∧
    (∀ v : NPVec, AS P11.synapses P11.biases v 0 = v) ∧
    (mmap sigmoid inp11).f 0 0 ≠ inp11.f 0 0 :=
  trainer_first_activation_sigmoid [1] 1 P11 inp11 shaped_P11 rfl

/-- C3.  One training epoch computes the output error as the raw
residual target - X (L-1), propagates hidden errors by
E i = E (i+1) · weights[i].T with no derivative factor, forms
grad i = E (i+1) ⊙ deriv_sigmoid (S (i+1)) and dw i = (X i).T · grad i,
and updates every weight in place to weights[i] + lr · dw i. -/
theorem epoch_backprop_update (ns : List ℕ) (n0 n1 : ℕ) (syn : List NPMat)
    (bs : List NPVec) (inp out : NPMat) (lr : ℝ)
    (h : ShapedFrom n0 syn bs (n1 :: ns)) (hc : inp.c = n0)
    (hor : out.r = inp.r) (hoc : out.c = (n0 :: n1 :: ns).getD syn.length 0) :
    epochStep lr inp out (syn, bs) =
      .ok (tailMap (fun i => matAddT (syn.getD i dM)
              (smulM lr (dwS syn bs inp out i))) 0 syn.length,
           tailMap (fun i => updBS lr syn bs inp out i) 0 syn.length) ∧
    topErr syn bs inp out = matSubT out (XS syn bs inp syn.length) ∧
    (∀ k, 1 ≤ k → k + 1 ≤ syn.length →
      ES syn (topErr syn bs inp out) syn.length k =
        matmulT (ES syn (topErr syn bs inp out) syn.length (k + 1))
          (transposeM (syn.getD k dM))) ∧
    (∀ i, gradS syn bs inp out i =
        hadT (ES syn (topErr syn bs inp out) syn.length (i + 1))
          (mmap deriv_sigmoid (SS syn bs inp (i + 1))) ∧
      dwS syn bs inp out i =
        matmulT (transposeM (XS syn bs inp i)) (gradS syn bs inp out i)) := by
  refine ⟨epochStep_refine ns n0 n1 syn bs inp out lr h hc hor hoc, rfl,
    fun k hk1 hk => ES_step syn (topErr syn bs inp out) syn.length k hk,
    fun i => ⟨rfl, rfl⟩⟩

theorem shaped_P21 : ShapedFrom 2 P21.synapses P21.biases [1] := by
  simp [ShapedFrom, P21, W21, b1]

/-- Witness for C3 on the concrete [2, 1] network, one zero sample and
target 1, learning rate 1. -/
theorem epoch_backprop_update_wit :
    epochStep 1 inp12 out11 (P21.synapses, P21.biases) =
      .ok (tailMap (fun i => matAddT (P21.synapses.getD i dM)
              (smulM 1 (dwS P21.synapses P21.biases inp12 out11 i)))
            0 P21.synapses.length,
           tailMap (fun i => updBS 1 P21.synapses P21.biases inp12 out11 i)
            0 P21.synapses.length) ∧
    topErr P21.synapses P21.biases inp12 out11 =
      matSubT out11 (XS P21.synapses P21.biases inp12 P21.synapses.length) ∧
    (∀ k, 1 ≤ k → k + 1 ≤ P21.synapses.length →
      ES P21.synapses (topErr P21.synapses P21.biases inp12 out11)
          P21.synapses.length k =
        matmulT (ES P21.synapses (topErr P21.synapses P21.biases inp12 out11)
            P21.synapses.length (k + 1))
          (transposeM (P21.synapses.getD k dM))) ∧
    (∀ i, gradS P21.synapses P21.biases inp12 out11 i =
        hadT (ES P21.synapses (topErr P21.synapses P21.biases inp12 out11)
            P21.synapses.length (i + 1))
          (mmap deriv_sigmoid (SS P21.synapses P21.biases inp12 (i + 1))) ∧
      dwS P21.synapses P21.biases inp12 out11 i =
        matmulT (transposeM (XS P21.synapses P21.biases inp12 i))
          (gradS P21.synapses P21.biases inp12 out11 i)) :=
  epoch_backprop_update [] 2 1 P21.synapses P21.biases inp12 out11 1
    shaped_P21 rfl rfl rfl

/-- C4 (amended).  In every training epoch the bias update adds
learning_rate times the columnwise mean over the rows of dw i, i.e.
np.mean (dw, axis=0): the divisor is the row count of dw i, which is
layer_sizes[i], the width of the previous layer, not the number of
samples in the batch. -/
theorem bias_update_row_mean (ns : List ℕ) (n0 n1 : ℕ) (syn : List NPMat)
    (bs : List NPVec) (inp out : NPMat) (lr : ℝ)
    (h : ShapedFrom n0 syn bs (n1 :: ns)) (hc : inp.c = n0)
    (hor : out.r = inp.r) (hoc : out.c = (n0 :: n1 :: ns).getD syn.length 0) :
    epochStep lr inp out (syn, bs) =
      .ok (tailMap (fun i => updWS lr syn bs inp out i) 0 syn.length,
           tailMap (fun i => vAddT (bs.getD i dV)
              (smulV lr (meanAxis0 (dwS syn bs inp out i)))) 0 syn.length) ∧
    (∀ i j, (meanAxis0 (dwS syn bs inp out i)).f j =
      (∑ a ∈ Finset.range (dwS syn bs inp out i).r,
        (dwS syn bs inp out i).f a j) / ((dwS syn bs inp out i).r : ℝ)) ∧
    (∀ i, i < syn.length →
      (dwS syn bs inp out i).r = (n0 :: n1 :: ns).getD i 0) := by
  have hmn : syn.length = (n1 :: ns).length :=
    (shapedFrom_lengths (n1 :: ns) n0 syn bs h).1
  refine ⟨epochStep_refine ns n0 n1 syn bs inp out lr h hc hor hoc,
    fun i j => rfl, fun i hi => ?_⟩
  exact dwS_rows (n1 :: ns) n0 syn bs inp out h hc i (by omega)

/-- Witness for C4 on the concrete [2, 1] network, one zero sample and
target 1, learning rate 1. -/
theorem bias_update_row_mean_wit :
    epochStep 1 inp12 out11 (P21.synapses, P21.biases) =
      .ok (tailMap (fun i => updWS 1 P21.synapses P21.biases inp12 out11 i)
            0 P21.synapses.length,
           tailMap (fun i => vAddT (P21.biases.getD i dV)
              (smulV 1 (meanAxis0 (dwS P21.synapses P21.biases inp12 out11 i))))
            0 P21.synapses.length) ∧
    (∀ i j, (meanAxis0 (dwS P21.synapses P21.biases inp12 out11 i)).f j =
      (∑ a ∈ Finset.range (dwS P21.synapses P21.biases inp12 out11 i).r,
        (dwS P21.synapses P21.biases inp12 out11 i).f a j) /
          ((dwS P21.synapses P21.biases inp12 out11 i).r : ℝ)) ∧
    (∀ i, i < P21.synapses.length →
      (dwS P21.synapses P21.biases inp12 out11 i).r = [2, 1].getD i 0) :=
  bias_update_row_mean [] 2 1 P21.synapses P21.biases inp12 out11 1
    shaped_P21 rfl rfl rfl

/-! Concrete evaluation helpers for the counterexamples. -/

theorem dw_entry_P21 (a b2 : ℕ) :
    (dwS P21.synapses P21.biases inp12 out11 0).f a b2 = 1 / 16 := by
  simp [dwS, gradS, topErr, XS, SS, ES, ESdown, P21, W21, b1, inp12, out11,
    matmulT, transposeM, hadT, mmap, matSubT, addRowT, Finset.sum_range_succ,
    Finset.sum_range_zero, deriv_sigmoid, sigmoid, Real.exp_zero]
  norm_num

theorem updBS_entry_P21 :
    (updBS 1 P21.synapses P21.biases inp12 out11 0).f 0 = 1 / 16 := by
  show (P21.biases.getD 0 dV).f 0 +
    ((∑ a ∈ Finset.range (dwS P21.synapses P21.biases inp12 out11 0).r,
      (dwS P21.synapses P21.biases inp12 out11 0).f a 0) /
      ((dwS P21.synapses P21.biases inp12 out11 0).r : ℝ)) * 1 = 1 / 16
  rw [show (dwS P21.synapses P21.biases inp12 out11 0).r = 2 from rfl]
  rw [Finset.sum_range_succ, Finset.sum_range_succ, Finset.sum_range_zero]
  rw [dw_entry_P21, dw_entry_P21]
  show (0 : ℝ) + (0 + 1 / 16 + 1 / 16) / (2 : ℝ) * 1 = 1 / 16
  norm_num

theorem claimMean_entry_P21 :
    (vAddT b1 (smulV 1 (claimMeanOverSamples inp12.r
      (dwS P21.synapses P21.biases inp12 out11 0)))).f 0 = 1 / 8 := by
  show b1.f 0 + ((∑ a ∈ Finset.range (dwS P21.synapses P21.biases inp12 out11 0).r,
      (dwS P21.synapses P21.biases inp12 out11 0).f a 0) /
      ((inp12.r : ℕ) : ℝ)) * 1 = 1 / 8
  rw [show (dwS P21.synapses P21.biases inp12 out11 0).r = 2 from rfl]
  rw [Finset.sum_range_succ, Finset.sum_range_succ, Finset.sum_range_zero]
  rw [dw_entry_P21, dw_entry_P21]
  show (0 : ℝ) + (0 + 1 / 16 + 1 / 16) / ((1 : ℕ) : ℝ) * 1 = 1 / 8
  norm_num

/-- C4 counterexample.  On the [2, 1] network with zero parameters, one
zero sample (so one row: the batch has 1 sample) and target 1 at
learning rate 1, the epoch sets the bias to 1/16 = mean over the 2 rows
of dw, while learning_rate times the mean over the 1 sample of dw would
give 1/8: the bias update is not the mean over samples of dw. -/
theorem bias_mean_divisor_cex :
    inp12.r = 1 ∧
    ((stateOf (epochStep 1 inp12 out11 (P21.synapses, P21.biases))).2.getD 0 dV).f 0
      = 1 / 16 ∧
    (vAddT b1 (smulV 1 (claimMeanOverSamples inp12.r
      (dwS P21.synapses P21.biases inp12 out11 0)))).f 0 = 1 / 8 ∧
    ((1 : ℝ) / 16) ≠ 1 / 8 := by
  refine ⟨rfl, ?_, claimMean_entry_P21, by norm_num⟩
  rw [epochStep_refine [] 2 1 P21.synapses P21.biases inp12 out11 1
    shaped_P21 rfl rfl rfl]
  show (updBS 1 P21.synapses P21.biases inp12 out11 0).f 0 = 1 / 16
  exact updBS_entry_P21

/-- C5 counterexample.  Train on the [1, 1] zero network with three
zero input rows but a single target row (mismatched row counts, 3 and
1): numpy broadcasting accepts the subtraction, the call returns
normally with no error, and the weight is modified from 0 to 3/16, so
the mismatch neither fails nor leaves the network unmodified. -/
theorem train_row_mismatch_accepted_cex :
    inp31.r = 3 ∧ out11.r = 1 ∧
    isOkE (learn P11 inp31 out11 1 1) = true ∧
    ((stateOf (learn P11 inp31 out11 1 1)).1.getD 0 dM).f 0 0 = 3 / 16 ∧
    (P11.synapses.getD 0 dM).f 0 0 = 0 ∧ ((3 : ℝ) / 16) ≠ 0 := by
  refine ⟨rfl, rfl, rfl, ?_, rfl, by norm_num⟩
  simp only [learn, Int.toNat_one]
  simp only [learnLoop, epochStep, forwardMem, backE, backLoop, P11, W11, b1,
    inp31, out11, matmulO, matmulT, addRowB, broadcast2, bcApply, bcDim, bcIdx,
    rowOf, subB, mulB, iaddM, iaddV, smulM, smulV, meanAxis0, transposeM, mmap,
    dotVM, stateOf, List.getLastD, List.drop, List.getD]
  norm_num [sigmoid, deriv_sigmoid, Real.exp_zero, Finset.sum_range_succ,
    Finset.sum_range_zero]
  rw [updLoop_cons]
  simp only [mulB, broadcast2, bcApply, bcDim, bcIdx, matmulO, matmulT,
    transposeM, mmap, iaddM, iaddV, smulM, smulV, meanAxis0, updLoop_nil,
    stateOf, List.getD]
  norm_num [sigmoid, deriv_sigmoid, Real.exp_zero, Finset.sum_range_succ,
    Finset.sum_range_zero]

/-- C5 (amended).  There is no DimensionMismatchError class: shape
errors are numpy ValueErrors raised inside the first epoch, not before
it.  Evaluate with an input of the wrong width fails and mutates
nothing; Train with input width different from layer_sizes[0] and at
least one epoch fails during the first forward pass, before any
parameter update, leaving weights and biases exactly unmodified.
Mismatched row counts are not reliably rejected: a broadcastable
mismatch is silently accepted (see the counterexample). -/
theorem dimension_mismatch_behavior (n0 n1 : ℕ) (ns : List ℕ) (p : Perceptron)
    (h : ShapedFrom n0 p.synapses p.biases (n1 :: ns)) :
    (∀ v : NPVec, v.n ≠ n0 → feedforwardV p v = none) ∧
    (∀ x : NPMat, x.c ≠ n0 → feedforwardM p x = none) ∧
    (∀ (inp out : NPMat) (epochs : ℤ) (lr : ℝ), inp.c ≠ n0 → 1 ≤ epochs →
      learn p inp out epochs lr = .error (p.synapses, p.biases)) := by
  rcases hsy : p.synapses with _ | ⟨W, Ws⟩
  · rw [hsy] at h
    rcases hsb : p.biases with _ | ⟨b, bs2⟩ <;> rw [hsb] at h <;>
      exact absurd h (by simp [ShapedFrom])
  · rcases hsb : p.biases with _ | ⟨b, bs2⟩
    · rw [hsy, hsb] at h
      exact absurd h (by simp [ShapedFrom])
    · rw [hsy, hsb] at h
      obtain ⟨hr, hc1, hb, h2⟩ := h
      refine ⟨?_, ?_, ?_⟩
      · intro v hv
        show ffLoopV p.synapses p.biases v = none
        rw [hsy, hsb, ffLoopV]
        have hdot : dotVM v W = none := by
          unfold dotVM
          rw [if_neg]
          intro hEq
          exact hv (hEq.trans hr)
        simp only [hdot]
      · intro x hx
        show ffLoopM p.synapses p.biases x = none
        rw [hsy, hsb, ffLoopM]
        have hdot : matmulO x W = none := by
          unfold matmulO
          rw [if_neg]
          intro hEq
          exact hx (hEq.trans hr)
        simp only [hdot]
      · intro inp out epochs lr hinp heps
        obtain ⟨k, hk⟩ : ∃ k, epochs.toNat = k + 1 :=
          ⟨epochs.toNat - 1, by omega⟩
        have hfw : forwardMem (W :: Ws) (b :: bs2) inp = none := by
          rw [forwardMem]
          have hm : matmulO (mmap sigmoid inp) W = none := by
            unfold matmulO
            rw [if_neg]
            intro hEq
            exact hinp (hEq.trans hr)
          simp only [hm]
        have hstep : epochStep lr inp out (W :: Ws, b :: bs2) =
            .error (W :: Ws, b :: bs2) := by
          unfold epochStep
          simp only [hfw]
        unfold learn
        rw [hk, hsy, hsb]
        show (match epochStep lr inp out (W :: Ws, b :: bs2) with
          | .error st2 => Except.error st2
          | .ok st2 => learnLoop lr inp out k st2) =
            Except.error (W :: Ws, b :: bs2)
        rw [hstep]

/-- A concrete zero vector of width 2, the wrong width for the [1, 1]
network. -/
def v2 : NPVec := ⟨2, fun _ => 0⟩

/-- Witness for amended C5 on the concrete [1, 1] network with inputs
of width 2. -/
theorem dimension_mismatch_behavior_wit :
    feedforwardV P11 v2 = none ∧ feedforwardM P11 inp12 = none ∧
    learn P11 inp12 out11 1 1 = .error (P11.synapses, P11.biases) := by
  have h := dimension_mismatch_behavior 1 1 [] P11 shaped_P11
  exact ⟨h.1 v2 (by norm_num [v2]), h.2.1 inp12 (by norm_num [inp12]),
    h.2.2 inp12 out11 1 1 (by norm_num [inp12]) (by norm_num)⟩

/-! Construction. -/

theorem buildFrom_shapes (wf : ℕ → ℕ → ℕ → ℝ) (bf : ℕ → ℕ → ℝ) :
    ∀ (layers : List ℕ) (k n : ℕ),
      ShapedFrom n (buildFrom wf bf k n layers).1
        (buildFrom wf bf k n layers).2 layers ∧
      (buildFrom wf bf k n layers).1.length = layers.length ∧
      (buildFrom wf bf k n layers).2.length = layers.length := by
  intro layers
  induction layers with
  | nil => intro k n; exact ⟨trivial, rfl, rfl⟩
  | cons m rest ih =>
    intro k n
    have h2 := ih (k + 1) m
    refine ⟨⟨rfl, rfl, rfl, h2.1⟩, ?_, ?_⟩
    · show (buildFrom wf bf (k + 1) m rest).1.length + 1 = rest.length + 1
      rw [h2.2.1]
    · show (buildFrom wf bf (k + 1) m rest).2.length + 1 = rest.length + 1
      rw [h2.2.2]

/-- A zero weight source for concrete constructions. -/
def wfZero : ℕ → ℕ → ℕ → ℝ := fun _ _ _ => 0

/-- A zero bias source for concrete constructions. -/
def bfZero : ℕ → ℕ → ℝ := fun _ _ => 0

/-- C6 counterexample.  Constructing with layer sizes 0 and 1 succeeds:
the zero (non-positive) width raises no error of any kind and yields a
degenerate network with a 0-by-1 weight matrix, so invalid topologies
are not rejected at construction. -/
theorem zero_width_construction_cex :
    (initP 0 1 [] wfZero bfZero).isSome = true ∧
    ((initP 0 1 [] wfZero bfZero).getD ⟨[], []⟩).synapses.length = 1 ∧
    (((initP 0 1 [] wfZero bfZero).getD ⟨[], []⟩).synapses.getD 0 dM).r = 0 ∧
    (((initP 0 1 [] wfZero bfZero).getD ⟨[], []⟩).synapses.getD 0 dM).c = 1 := by
  refine ⟨?_, ?_, ?_, ?_⟩ <;> rfl

/-- C6 (amended).  Construction performs no topology validation of its
own: the only failure is the array allocator refusing a negative size.
With all sizes non-negative (zero included) construction succeeds and
the resulting network satisfies the shape invariants; with some
negative size it fails, with numpy ValueError rather than any
ConfigurationError, which does not exist. -/
theorem construction_no_validation (l1 l2 : ℤ) (rest : List ℤ)
    (wf : ℕ → ℕ → ℕ → ℝ) (bf : ℕ → ℕ → ℝ) :
    ((∀ x ∈ l1 :: l2 :: rest, 0 ≤ x) →
      (initP l1 l2 rest wf bf).isSome = true ∧
      ∀ p, initP l1 l2 rest wf bf = some p →
        ShapedFrom l1.toNat p.synapses p.biases ((l2 :: rest).map Int.toNat) ∧
        p.synapses.length = rest.length + 1 ∧
        p.biases.length = rest.length + 1) ∧
    ((¬ ∀ x ∈ l1 :: l2 :: rest, 0 ≤ x) → initP l1 l2 rest wf bf = none) := by
  constructor
  · intro hall
    unfold initP
    rw [if_pos hall]
    refine ⟨rfl, ?_⟩
    intro p hp
    have hbp := Option.some.inj hp
    have hb := buildFrom_shapes wf bf ((l2 :: rest).map Int.toNat) 0 l1.toNat
    rw [← hbp]
    refine ⟨hb.1, ?_, ?_⟩
    · show (buildFrom wf bf 0 l1.toNat ((l2 :: rest).map Int.toNat)).1.length = _
      rw [hb.2.1]
      simp
    · show (buildFrom wf bf 0 l1.toNat ((l2 :: rest).map Int.toNat)).2.length = _
      rw [hb.2.2]
      simp
  · intro hneg
    unfold initP
    rw [if_neg hneg]

/-- Witness for amended C6: sizes [2, 1] succeed, size -1 fails. -/
theorem construction_no_validation_wit :
    (initP 2 1 [] wfZero bfZero).isSome = true ∧
    initP (-1) 1 [] wfZero bfZero = none := by
  constructor
  · exact ((construction_no_validation 2 1 [] wfZero bfZero).1 (by decide)).1
  · exact (construction_no_validation (-1) 1 [] wfZero bfZero).2 (by decide)

/-! Shape preservation of the in-place updates. -/

theorem iaddM_shape (A D W2 : NPMat) (h : iaddM A D = some W2) :
    W2.r = A.r ∧ W2.c = A.c := by
  unfold iaddM at h
  split at h
  · have h2 := Option.some.inj h
    rw [← h2]
    exact ⟨rfl, rfl⟩
  · exact Option.noConfusion h

theorem iaddV_shape (b d b2 : NPVec) (h : iaddV b d = some b2) : b2.n = b.n := by
  unfold iaddV at h
  split at h
  · have h2 := Option.some.inj h
    rw [← h2]
  · exact Option.noConfusion h

theorem updLoop_shapes (lr : ℝ) :
    ∀ (syn : List NPMat) (bs : List NPVec) (E S X : List NPMat),
      (stateOf (updLoop lr syn bs E S X)).1.map (fun A => (A.r, A.c)) =
        syn.map (fun A => (A.r, A.c)) ∧
      (stateOf (updLoop lr syn bs E S X)).2.map (fun v => v.n) =
        bs.map (fun v => v.n) := by
  intro syn
  induction syn with
  | nil => intro bs E S X; exact ⟨rfl, rfl⟩
  | cons W Ws ih =>
    intro bs E S X
    match E, S, X with
    | [], _, _ => exact ⟨rfl, rfl⟩
    | _ :: _, [], _ => exact ⟨rfl, rfl⟩
    | _ :: _, _ :: _, [] => exact ⟨rfl, rfl⟩
    | e :: E2, s :: S2, x :: X2 =>
      cases hg : mulB e (mmap deriv_sigmoid s) with
      | none =>
        have hval : updLoop lr (W :: Ws) bs (e :: E2) (s :: S2) (x :: X2) =
            .error (W :: Ws, bs) := by
          simp only [updLoop_cons, hg]
        rw [hval]
        exact ⟨rfl, rfl⟩
      | some grad =>
        cases hd : matmulO (transposeM grad) x with
        | none =>
          have hval : updLoop lr (W :: Ws) bs (e :: E2) (s :: S2) (x :: X2) =
              .error (W :: Ws, bs) := by
            simp only [updLoop_cons, hg, hd]
          rw [hval]
          exact ⟨rfl, rfl⟩
        | some dwT =>
          cases hw : iaddM W (smulM lr (transposeM dwT)) with
          | none =>
            have hval : updLoop lr (W :: Ws) bs (e :: E2) (s :: S2) (x :: X2) =
                .error (W :: Ws, bs) := by
              simp only [updLoop_cons, hg, hd, hw]
            rw [hval]
            exact ⟨rfl, rfl⟩
          | some W2 =>
            have hW2 := iaddM_shape W (smulM lr (transposeM dwT)) W2 hw
            match bs with
            | [] =>
              have hval : updLoop lr (W :: Ws) [] (e :: E2) (s :: S2) (x :: X2) =
                  .error (W2 :: Ws, []) := by
                simp only [updLoop_cons, hg, hd, hw]
              rw [hval]
              refine ⟨?_, rfl⟩
              simp only [stateOf, List.map, hW2.1, hW2.2]
            | b :: bs3 =>
              cases hb : iaddV b (smulV lr (meanAxis0 (transposeM dwT))) with
              | none =>
                have hval : updLoop lr (W :: Ws) (b :: bs3)
                    (e :: E2) (s :: S2) (x :: X2) =
                    .error (W2 :: Ws, b :: bs3) := by
                  simp only [updLoop_cons, hg, hd, hw, hb]
                rw [hval]
                refine ⟨?_, rfl⟩
                simp only [stateOf, List.map, hW2.1, hW2.2]
              | some b2 =>
                have hB2 := iaddV_shape b (smulV lr (meanAxis0 (transposeM dwT))) b2 hb
                have hih := ih bs3 E2 S2 X2
                cases hrec : updLoop lr Ws bs3 E2 S2 X2 with
                | error p2 =>
                  rw [hrec] at hih
                  simp only [stateOf] at hih
                  have hval : updLoop lr (W :: Ws) (b :: bs3)
                      (e :: E2) (s :: S2) (x :: X2) =
                      .error (W2 :: p2.1, b2 :: p2.2) := by
                    simp only [updLoop_cons, hg, hd, hw, hb, hrec]
                  rw [hval]
                  constructor
                  · simp only [stateOf, List.map, hW2.1, hW2.2, hih.1]
                  · simp only [stateOf, List.map, hB2, hih.2]
                | ok p2 =>
                  rw [hrec] at hih
                  simp only [stateOf] at hih
                  have hval : updLoop lr (W :: Ws) (b :: bs3)
                      (e :: E2) (s :: S2) (x :: X2) =
                      .ok (W2 :: p2.1, b2 :: p2.2) := by
                    simp only [updLoop_cons, hg, hd, hw, hb, hrec]
                  rw [hval]
                  constructor
                  · simp only [stateOf, List.map, hW2.1, hW2.2, hih.1]
                  · simp only [stateOf, List.map, hB2, hih.2]

theorem epochStep_shapes (lr : ℝ) (inp out : NPMat) (st : NetState) :
    (stateOf (epochStep lr inp out st)).1.map (fun A => (A.r, A.c)) =
      st.1.map (fun A => (A.r, A.c)) ∧
    (stateOf (epochStep lr inp out st)).2.map (fun v => v.n) =
      st.2.map (fun v => v.n) := by
  cases hf : forwardMem st.1 st.2 inp with
  | none =>
    have hval : epochStep lr inp out st = .error st := by
      unfold epochStep
      simp only [hf]
    rw [hval]
    exact ⟨rfl, rfl⟩
  | some SX =>
    cases hs : subB out (SX.2.getLastD dM) with
    | none =>
      have hval : epochStep lr inp out st = .error st := by
        unfold epochStep
        simp only [hf, hs]
      rw [hval]
      exact ⟨rfl, rfl⟩
    | some eTop =>
      cases hb : backE st.1 eTop with
      | none =>
        have hval : epochStep lr inp out st = .error st := by
          unfold epochStep
          simp only [hf, hs, hb]
        rw [hval]
        exact ⟨rfl, rfl⟩
      | some E =>
        have hval : epochStep lr inp out st =
            updLoop lr st.1 st.2 E (SX.1.drop 1) SX.2 := by
          unfold epochStep
          simp only [hf, hs, hb]
        rw [hval]
        exact updLoop_shapes lr st.1 st.2 E (SX.1.drop 1) SX.2

theorem learnLoop_shapes (lr : ℝ) (inp out : NPMat) :
    ∀ (k : ℕ) (st : NetState),
      (stateOf (learnLoop lr inp out k st)).1.map (fun A => (A.r, A.c)) =
        st.1.map (fun A => (A.r, A.c)) ∧
      (stateOf (learnLoop lr inp out k st)).2.map (fun v => v.n) =
        st.2.map (fun v => v.n) := by
  intro k
  induction k with
  | zero => intro st; exact ⟨rfl, rfl⟩
  | succ k ih =>
    intro st
    have h1 : learnLoop lr inp out (k + 1) st =
        match epochStep lr inp out st with
        | .error st2 => .error st2
        | .ok st2 => learnLoop lr inp out k st2 := rfl
    rw [h1]
    have hep := epochStep_shapes lr inp out st
    cases he : epochStep lr inp out st with
    | error st2 =>
      rw [he] at hep
      simp only [stateOf] at hep
      exact hep
    | ok st2 =>
      rw [he] at hep
      simp only [stateOf] at hep
      have hrec := ih st2
      exact ⟨hrec.1.trans hep.1, hrec.2.trans hep.2⟩

theorem shapedFrom_of_shapes :
    ∀ (ns : List ℕ) (n0 : ℕ) (syn syn2 : List NPMat) (bs bs2 : List NPVec),
      syn.map (fun A => (A.r, A.c)) = syn2.map (fun A => (A.r, A.c)) →
      bs.map (fun v => v.n) = bs2.map (fun v => v.n) →
      ShapedFrom n0 syn2 bs2 ns → ShapedFrom n0 syn bs ns := by
  intro ns
  induction ns with
  | nil =>
    intro n0 syn syn2 bs bs2 hs hb h
    match syn2, bs2 with
    | [], [] =>
      have hsn : syn = [] := by simpa using congrArg List.length hs
      have hbn : bs = [] := by simpa using congrArg List.length hb
      rw [hsn, hbn]
      trivial
    | [], _ :: _ => exact absurd h (by simp [ShapedFrom])
    | _ :: _, [] => exact absurd h (by simp [ShapedFrom])
    | _ :: _, _ :: _ => exact absurd h (by simp [ShapedFrom])
  | cons m rest ih =>
    intro n0 syn syn2 bs bs2 hs hb h
    match syn2, bs2 with
    | [], [] => exact absurd h (by simp [ShapedFrom])
    | [], _ :: _ => exact absurd h (by simp [ShapedFrom])
    | _ :: _, [] => exact absurd h (by simp [ShapedFrom])
    | W2 :: Ws2, c2 :: cs2 =>
      obtain ⟨hr, hc1, hbn, h2⟩ := h
      match syn, bs with
      | [], _ => exact absurd hs (by simp)
      | _ :: _, [] => exact absurd hb (by simp)
      | W :: Ws, b :: bs3 =>
        simp only [List.map, List.cons.injEq, Prod.mk.injEq] at hs hb
        refine ⟨hs.1.1.trans hr, hs.1.2.trans hc1, hb.1.trans hbn, ?_⟩
        exact ih m Ws Ws2 bs3 cs2 hs.2 hb.2 h2

/-- C9.  The shape invariants hold after construction and are preserved
by training: len (weights) = len (biases) = L - 1 with weights[i] of
shape (layer_sizes[i], layer_sizes[i+1]) and biases[i] of length
layer_sizes[i+1] after construction, and the state left by learn, whether
it returns or raises, has exactly the original shapes. -/
theorem shape_invariants :
    (∀ (l1 l2 : ℤ) (rest : List ℤ) (wf : ℕ → ℕ → ℕ → ℝ) (bf : ℕ → ℕ → ℝ)
        (p : Perceptron), initP l1 l2 rest wf bf = some p →
      ShapedFrom l1.toNat p.synapses p.biases ((l2 :: rest).map Int.toNat) ∧
      p.synapses.length = rest.length + 1 ∧
      p.biases.length = rest.length + 1) ∧
    (∀ (n0 : ℕ) (ns : List ℕ) (p : Perceptron) (inp out : NPMat)
        (epochs : ℤ) (lr : ℝ),
      ShapedFrom n0 p.synapses p.biases ns →
      ShapedFrom n0 (stateOf (learn p inp out epochs lr)).1
        (stateOf (learn p inp out epochs lr)).2 ns ∧
      (stateOf (learn p inp out epochs lr)).1.length = p.synapses.length ∧
      (stateOf (learn p inp out epochs lr)).2.length = p.biases.length) := by
  constructor
  · intro l1 l2 rest wf bf p hp
    unfold initP at hp
    split at hp
    · have hbp := Option.some.inj hp
      have hb := buildFrom_shapes wf bf ((l2 :: rest).map Int.toNat) 0 l1.toNat
      rw [← hbp]
      refine ⟨hb.1, ?_, ?_⟩
      · show (buildFrom wf bf 0 l1.toNat ((l2 :: rest).map Int.toNat)).1.length = _
        rw [hb.2.1]
        simp
      · show (buildFrom wf bf 0 l1.toNat ((l2 :: rest).map Int.toNat)).2.length = _
        rw [hb.2.2]
        simp
    · exact Option.noConfusion hp
  · intro n0 ns p inp out epochs lr h
    have hl := learnLoop_shapes lr inp out epochs.toNat (p.synapses, p.biases)
    refine ⟨shapedFrom_of_shapes ns n0 _ p.synapses _ p.biases hl.1 hl.2 h, ?_, ?_⟩
    · have := congrArg List.length hl.1
      simpa using this
    · have := congrArg List.length hl.2
      simpa using this

/-- Witness for C9 on a concrete construction and a concrete training
call on the [1, 1] network. -/
theorem shape_invariants_wit :
    (ShapedFrom (2 : ℤ).toNat
      (((initP 2 1 [] wfZero bfZero).getD ⟨[], []⟩).synapses)
      (((initP 2 1 [] wfZero bfZero).getD ⟨[], []⟩).biases)
      (([1] : List ℤ).map Int.toNat) ∧
      ((initP 2 1 [] wfZero bfZero).getD ⟨[], []⟩).synapses.length = 1 ∧
      ((initP 2 1 [] wfZero bfZero).getD ⟨[], []⟩).biases.length = 1) ∧
    (ShapedFrom 1 (stateOf (learn P11 inp11 out11 5 1)).1
      (stateOf (learn P11 inp11 out11 5 1)).2 [1] ∧
      (stateOf (learn P11 inp11 out11 5 1)).1.length = P11.synapses.length ∧
      (stateOf (learn P11 inp11 out11 5 1)).2.length = P11.biases.length) :=
  ⟨shape_invariants.1 2 1 [] wfZero bfZero
      ((initP 2 1 [] wfZero bfZero).getD ⟨[], []⟩) rfl,
   shape_invariants.2 1 [1] P11 inp11 out11 5 1 shaped_P11⟩

/-- C7.  Train with a non-positive epoch count runs zero epochs and
returns the weights and biases exactly unchanged, for every network and
every paired dataset. -/
theorem train_nonpositive_epochs_noop (p : Perceptron) (inp out : NPMat)
    (epochs : ℤ) (lr : ℝ) (h : epochs ≤ 0) :
    learn p inp out epochs lr = .ok (p.synapses, p.biases) := by
  unfold learn
  rw [Int.toNat_of_nonpos h]
  rfl

/-- Witness for C7 at a concrete network, dataset and negative epoch
count. -/
theorem train_nonpositive_epochs_noop_wit :
    (-3 : ℤ) ≤ 0 ∧
      learn ⟨[⟨1, 1, fun _ _ => 0⟩], [⟨1, fun _ => 0⟩]⟩ dM dM (-3) 1 =
        .ok ([⟨1, 1, fun _ _ => 0⟩], [⟨1, fun _ => 0⟩]) :=
  ⟨by norm_num,
   train_nonpositive_epochs_noop ⟨[⟨1, 1, fun _ _ => 0⟩], [⟨1, fun _ => 0⟩]⟩
     dM dM (-3) 1 (by norm_num)⟩

/-- C10.  Train called with epochs = 0 performs no shape validation at
all: for every network and arbitrarily mismatched or malformed input
and target arrays it returns normally (no exception) with the state
unchanged, because the epoch loop body, the only place shapes are
exercised, never executes. -/
theorem epochs_zero_skips_validation (p : Perceptron) (inp out : NPMat)
    (lr : ℝ) :
    learn p inp out 0 lr = .ok (p.synapses, p.biases) ∧
      isOkE (learn p inp out 0 lr) = true := by
  constructor
  · rfl
  · rfl

end

end PerceptronModel
